import Mathlib

/-!
# SequentialPageWidget (qtpdf example viewer)

A shallow embedding of `examples/pdf/pdfviewer/sequentialpagewidget.cpp`.

* An `int` is a 32-bit two's complement integer: the result of an `int` operation is an
  `Int` reduced by `wrap32`. The language leaves the result of an overflowing `int` operation
  open; the reduction is what the compiled addition and subtraction give.
* A `qreal` is an IEEE 754 binary64 number (`Double`): a finite value, an infinity or a
  NaN. Every arithmetic operation computes the exact result and rounds it to the nearest
  binary64 number, ties to even. The sign of a zero is not recorded: no operation of the
  widget tells the two zeros apart.
* A conversion between `int` and `qreal` is explicit: `Double.ofInt` where the source passes
  an `int` to a `double` operation, `Double.toInt` where it stores a `double` in an `int` or
  passes it to an `int` parameter.
* Values the widget receives (its width, the rectangle of a paint, the dimensions of bitmaps
  and of the icon, the page index of a completion) are integers taken as given.
* A member function becomes a function from the widget state to the new state together
  with the list of outward effects (signals, painter calls, render requests) in the order
  the source issues them.
* The unguarded access `m_pageSizes[page]` is fallible: a function that would read outside
  the list returns `none`. Loops carry a fuel argument counting evaluations of the loop
  condition; running out of fuel also gives `none`.
-/

namespace QtPdf

/-! ## Machine integers -/

/-- The value an `int` holds after an operation whose exact result is `n`: reduction into the
32-bit two's complement range. -/
def wrap32 (n : Int) : Int := (n + 2147483648) % 4294967296 - 2147483648

/-- The range of an `int`. -/
def IntRange (n : Int) : Prop := -2147483648 ≤ n ∧ n ≤ 2147483647

instance (n : Int) : Decidable (IntRange n) := by unfold IntRange; infer_instance

/-- An `int` member: an integer inside the range of `int`. -/
abbrev CInt := { n : Int // IntRange n }

instance (n : Nat) : OfNat CInt n :=
  ⟨⟨wrap32 n, by unfold IntRange wrap32; omega⟩⟩

/-! ## Floating-point numbers -/

/-- An IEEE 754 binary64 number, without the sign of zero. A finite value is given by the
rational number it denotes. -/
inductive Double where
  | fin (q : ℚ)
  | inf (negative : Bool)
  | nan
deriving DecidableEq, Repr

namespace Double

instance (n : Nat) : OfNat Double n := ⟨fin (Rat.ofInt (Int.ofNat n))⟩

/-- The quotient `num / den` rounded to the nearest natural number, ties to even. -/
def roundHalfEven (num den : Nat) : Nat :=
  let k := num / den
  let r := num % den
  if 2 * r < den then k
  else if den < 2 * r then k + 1
  else if k % 2 = 0 then k else k + 1

/-- The number of binary digits of `n` (with `fuel` at least that number). -/
def bitLength : Nat → Nat → Nat
  | 0, _ => 0
  | fuel + 1, n => if n = 0 then 0 else bitLength fuel (n / 2) + 1

/-- The binary exponent of the positive quotient `a / b`: the largest `e` with
`2 ^ e ≤ a / b`. -/
def exponent (a b : Nat) : Int :=
  let d : Int := (bitLength a a : Int) - (bitLength b b : Int)
  if (if 0 ≤ d then b * 2 ^ d.toNat ≤ a else b ≤ a * 2 ^ (-d).toNat) then d else d - 1

/-- Rounding of an exact result to binary64: 53 significant binary digits, exponents from
-1022 (below which the spacing of the numbers stays `2 ^ -1074`) to 1023 (above which the
result is an infinity), ties to even. -/
def ofRat (q : ℚ) : Double :=
  if q.num = 0 then fin 0
  else
    let a := q.num.natAbs
    let b := q.den
    let s : Int := max (exponent a b) (-1022) - 52
    let n : Nat :=
      if 0 ≤ s then roundHalfEven a (b * 2 ^ s.toNat)
      else roundHalfEven (a * 2 ^ (-s).toNat) b
    if 971 < s ∨ (s = 971 ∧ 2 ^ 53 ≤ n) then inf (decide (q < 0))
    else
      let r : ℚ :=
        if 0 ≤ s then Rat.ofInt (Int.ofNat (n * 2 ^ s.toNat))
        else mkRat (Int.ofNat n) (2 ^ (-s).toNat)
      fin (if q < 0 then -r else r)

/-- Conversion of an `int` to `double`. -/
def ofInt (n : Int) : Double := ofRat (Rat.ofInt n)

/-- Unary minus. -/
def neg : Double → Double
  | fin q => fin (-q)
  | inf s => inf (!s)
  | nan => nan

instance : Neg Double := ⟨neg⟩

/-- Addition. -/
def add : Double → Double → Double
  | fin a, fin b => ofRat (a + b)
  | fin _, inf s => inf s
  | inf s, fin _ => inf s
  | inf s, inf t => if s = t then inf s else nan
  | _, _ => nan

/-- Subtraction. -/
def sub (a b : Double) : Double := add a (neg b)

/-- Multiplication. -/
def mul : Double → Double → Double
  | fin a, fin b => ofRat (a * b)
  | fin a, inf s => if a.num = 0 then nan else inf (xor s (decide (a < 0)))
  | inf s, fin b => if b.num = 0 then nan else inf (xor s (decide (b < 0)))
  | inf s, inf t => inf (xor s t)
  | _, _ => nan

/-- Division. A zero divisor counts as positive. -/
def div : Double → Double → Double
  | fin a, fin b =>
    if b.num = 0 then (if a.num = 0 then nan else inf (decide (a < 0))) else ofRat (a / b)
  | fin _, inf _ => fin 0
  | inf s, fin b => inf (xor s (decide (b < 0)))
  | _, _ => nan

/-- The comparison `a >= b`; false when either side is a NaN. -/
def ge : Double → Double → Bool
  | fin a, fin b => decide (b ≤ a)
  | fin _, inf s => s
  | inf s, fin _ => !s
  | inf s, inf t => !s || t
  | _, _ => false

/-- The comparison `a > b`; false when either side is a NaN. -/
def gt : Double → Double → Bool
  | fin a, fin b => decide (b < a)
  | fin _, inf s => s
  | inf s, fin _ => !s
  | inf s, inf t => !s && t
  | _, _ => false

/-- Conversion of a `double` to `int`: truncation toward zero. For a value whose truncation
is outside the range of `int`, for an infinity and for a NaN the language leaves the result
open; the value is the one the conversion instruction of the x86-64 gives, `INT_MIN`. -/
def toInt : Double → Int
  | fin q =>
    let t := Int.tdiv q.num (q.den : Int)
    if -2147483648 ≤ t ∧ t ≤ 2147483647 then t else -2147483648
  | _ => -2147483648

end Double

/-! ## Toolkit value types -/

/-- The toolkit's `qRound(double)`:
`d >= 0.0 ? int(d + 0.5) : int(d - double(int(d-1)) + 0.5) + int(d-1)`. -/
def qRound (d : Double) : Int :=
  if Double.ge d 0 then Double.toInt (Double.add d (Double.fin (1 / 2)))
  else
    wrap32 (Double.toInt (Double.add (Double.sub d (Double.ofInt (Double.toInt (Double.sub d 1))))
        (Double.fin (1 / 2))) +
      Double.toInt (Double.sub d 1))

/-- Integer size (`QSize`). -/
structure QSize where
  wd : Int
  ht : Int
deriving DecidableEq, Repr

/-- Real-valued size (`QSizeF`). -/
structure QSizeF where
  wd : Double
  ht : Double
deriving DecidableEq, Repr

namespace QSizeF

/-- The toolkit's `operator*(const QSizeF &, qreal)`. -/
def mul (s : QSizeF) (c : Double) : QSizeF := ⟨Double.mul s.wd c, Double.mul s.ht c⟩

/-- The toolkit's `QSizeF::toSize()`. -/
def toSize (s : QSizeF) : QSize := ⟨qRound s.wd, qRound s.ht⟩

end QSizeF

/-- Rectangle of a paint event, by its edge coordinates (`QRect`). -/
structure QRect where
  x1 : Int
  y1 : Int
  x2 : Int
  y2 : Int
deriving DecidableEq, Repr

namespace QRect

/-- The toolkit's `QRect::top()`. -/
def top (r : QRect) : Int := r.y1

/-- The toolkit's `QRect::bottom()`. -/
def bottom (r : QRect) : Int := r.y2

end QRect

/-- A rendered bitmap: its pixel dimensions and an identifier of its contents. -/
structure QImage where
  width : Int
  height : Int
  content : Nat
deriving DecidableEq, Repr

/-- The placeholder icon (`QPixmap`), by its pixel dimensions. -/
structure QPixmap where
  width : Int
  height : Int
deriving DecidableEq, Repr

/-- Colours the widget paints with. -/
inductive QColor where
  | darkGray
  | white
deriving DecidableEq, Repr

/-- Status values of the document. -/
inductive Status where
  | null
  | loading
  | ready
  | unloading
  | error
deriving DecidableEq, Repr

/-- The part of the external document the widget queries. -/
structure QPdfDocument where
  status : Status
  pageCount : Int
  pageSize : Int → QSizeF

/-! ## The rendered-page cache (`m_pageCache`), a map from page index to bitmap -/

/-- Modelled from the spec: the declaration of `m_pageCache` is in the widget's header, which
is not among the sources; the specification describes it as a mapping from page index to a
decoded bitmap. It is an association list with at most one entry per key. -/
abbrev PageCache := List (Int × QImage)

namespace PageCache

/-- Removal of a key (`remove`). -/
def remove (m : PageCache) (k : Int) : PageCache := m.filter (fun e => e.1 ≠ k)

/-- Insertion of a key, replacing the value of a key already present (`insert`). -/
def insert (m : PageCache) (k : Int) (v : QImage) : PageCache := (k, v) :: remove m k

/-- Membership of a key (`contains`). -/
def contains (m : PageCache) (k : Int) : Bool := m.any (fun e => e.1 == k)

/-- Value stored for a key. -/
def value (m : PageCache) (k : Int) : Option QImage := (m.find? (fun e => e.1 == k)).map Prod.snd

/-- The keys of the map. -/
def keys (m : PageCache) : List Int := m.map Prod.fst

/-- Number of entries (`size`). -/
def size (m : PageCache) : Nat := m.length

end PageCache

/-! ## Outward effects -/

/-- Signals emitted, widget calls, painter calls and render requests. -/
inductive Effect where
  | zoomChanged (factor : Double)
  | showingPageRange (top bottom : Int)
  | setMinimumSize (s : QSize)
  | update
  | requestPage (page : Int) (zoom : Double)
  | fillBackground (r : QRect) (c : QColor)
  | fillRect (x y w h : Int) (c : QColor)
  | drawImage (x y : Int) (img : QImage)
  | drawPixmap (x y : Int) (pm : QPixmap)
deriving DecidableEq, Repr

/-! ## Widget state -/

/-- Modelled from the spec: the member declarations are in the widget's header, which is not
among the sources; the types follow the constructor's initialisers, the uses in the member
functions and the specification's data model (`m_cachedPagesLRU` is the request-order
sequence of page indices, oldest first). The structure holds the members the source reads
or writes, and the widget's current `width()`. The spacing, the `int` member that enters
every offset, carries the range of `int`. -/
structure SequentialPageWidget where
  m_pageCache : PageCache
  m_cachedPagesLRU : List Int
  m_pageCacheLimit : Int
  m_pageSizes : List QSizeF
  m_background : QColor
  m_placeholderIcon : QPixmap
  m_placeholderBackground : QColor
  m_pageSpacing : CInt
  m_topPageShowing : Int
  m_bottomPageShowing : Int
  m_totalSize : QSize
  m_zoom : Double
  m_screenResolution : Double
  width : Int
deriving DecidableEq, Repr

namespace SequentialPageWidget

/-- The constructor. The screen's logical dots per inch, the loaded placeholder icon, the
widget width and the value found in the member the constructor leaves uninitialised
(`m_bottomPageShowing`) are parameters. -/
def new (logicalDotsPerInch : Double) (icon : QPixmap) (width bottomPageShowing : Int) :
    SequentialPageWidget :=
  { m_pageCache := []
    m_cachedPagesLRU := []
    m_pageCacheLimit := 20
    m_pageSizes := []
    m_background := QColor.darkGray
    m_placeholderIcon := icon
    m_placeholderBackground := QColor.white
    m_pageSpacing := 3
    m_topPageShowing := 0
    m_bottomPageShowing := bottomPageShowing
    m_totalSize := ⟨-1, -1⟩
    m_zoom := 1
    m_screenResolution := Double.div logicalDotsPerInch 72
    width := width }

/-- `pageCount()`. -/
def pageCount (w : SequentialPageWidget) : Int := w.m_pageSizes.length

/-- `pageSize(page)`: `m_pageSizes[page] * m_screenResolution * m_zoom`; `none` when the
index is outside the list. -/
def pageSize (w : SequentialPageWidget) (page : Int) : Option QSizeF :=
  if 0 ≤ page then
    (w.m_pageSizes[page.toNat]?).map (fun s => (s.mul w.m_screenResolution).mul w.m_zoom)
  else none

/-- The loop of `invalidate()`, from index `page` with the running `totalSize`. -/
def invalidateLoop (w : SequentialPageWidget) : Nat → Int → QSizeF → Option QSizeF
  | 0, _, _ => none
  | fuel + 1, page, totalSize =>
    if page < w.pageCount then
      match w.pageSize page with
      | none => none
      | some size =>
        let t1 : QSizeF := ⟨totalSize.wd, Double.add totalSize.ht size.ht⟩
        let t2 : QSizeF := if Double.gt size.wd t1.wd then ⟨size.wd, t1.ht⟩ else t1
        invalidateLoop w fuel (page + 1) t2
    else some totalSize

/-- `invalidate()`. -/
def invalidate (w : SequentialPageWidget) : Option (SequentialPageWidget × List Effect) :=
  match invalidateLoop w (w.m_pageSizes.length + 1) 0
      ⟨Double.ofInt 0, Double.ofInt w.m_pageSpacing.val⟩ with
  | none => none
  | some totalSize =>
    let w1 := { w with m_totalSize := totalSize.toSize }
    some ({ w1 with m_pageCache := [] },
      [Effect.setMinimumSize w1.m_totalSize, Effect.zoomChanged w1.m_zoom, Effect.update])

/-- `setZoom(factor)`. -/
def setZoom (w : SequentialPageWidget) (factor : Double) :
    Option (SequentialPageWidget × List Effect) :=
  match invalidate { w with m_zoom := factor } with
  | none => none
  | some (w1, effs) => some (w1, Effect.zoomChanged factor :: effs)

/-- `documentStatusChanged()`, reading the document `doc`. -/
def documentStatusChanged (w : SequentialPageWidget) (doc : QPdfDocument) :
    Option (SequentialPageWidget × List Effect) :=
  let w1 := { w with m_pageSizes := [], m_topPageShowing := 0 }
  let w2 :=
    if doc.status = Status.ready then
      { w1 with m_pageSizes :=
          (List.range doc.pageCount.toNat).map (fun (page : Nat) => doc.pageSize (page : Int)) }
    else w1
  invalidate w2

/-- `pageLoaded(page, zoom, image)`. `takeFirst()` needs a non-empty sequence, which the
test guarantees for every limit that is not negative; on an empty sequence the state is left
as it is. -/
def pageLoaded (w : SequentialPageWidget) (page : Int) (_zoom : Double) (image : QImage) :
    SequentialPageWidget × List Effect :=
  let w1 :=
    if (w.m_cachedPagesLRU.length : Int) > w.m_pageCacheLimit then
      match w.m_cachedPagesLRU with
      | [] => w
      | first :: rest =>
        { w with m_cachedPagesLRU := rest, m_pageCache := w.m_pageCache.remove first }
    else w
  ({ w1 with m_pageCache := w1.m_pageCache.insert page image
             m_cachedPagesLRU := w1.m_cachedPagesLRU ++ [page] },
    [Effect.update])

/-- The first loop of `paintEvent`: finds the first page that needs to be rendered.
Returns the values of `page` and `y` when the loop is left. `y` and `height` are `int`s. -/
def topLoop (w : SequentialPageWidget) (top : Int) : Nat → Int → Int → Option (Int × Int)
  | 0, _, _ => none
  | fuel + 1, page, y =>
    if page < w.pageCount then
      match w.pageSize page with
      | none => none
      | some size =>
        let height := size.toSize.ht
        if wrap32 (y + height) ≥ top then some (page, y)
        else topLoop w top fuel (page + 1) (wrap32 (y + wrap32 (height + w.m_pageSpacing.val)))
    else some (page, y)

/-- The painter calls and the render request `paintEvent` issues for one page placed at
`y`. -/
def paintPage (w : SequentialPageWidget) (page y : Int) (size : QSizeF) : List Effect :=
  if w.m_pageCache.contains page then
    let img := (w.m_pageCache.value page).getD ⟨0, 0, 0⟩
    [Effect.fillRect (Int.tdiv (wrap32 (w.width - img.width)) 2) y (Double.toInt size.wd)
        (Double.toInt size.ht) QColor.white,
     Effect.drawImage (Int.tdiv (wrap32 (w.width - img.width)) 2) y img]
  else
    [Effect.fillRect
        (Double.toInt (Double.div (Double.sub (Double.ofInt w.width) size.wd) (Double.ofInt 2)))
        y (Double.toInt size.wd) (Double.toInt size.ht) w.m_placeholderBackground,
     Effect.drawPixmap
        (Double.toInt (Double.div (Double.sub size.wd (Double.ofInt w.m_placeholderIcon.width))
          (Double.ofInt 2)))
        (Double.toInt (Double.div (Double.sub size.ht (Double.ofInt w.m_placeholderIcon.height))
          (Double.ofInt 2)))
        w.m_placeholderIcon,
     Effect.requestPage page (Double.mul w.m_screenResolution w.m_zoom)]

/-- The second loop of `paintEvent`: renders pages. Returns the value of `page` when the
loop is left and the effects of the iterations. The step `y += size.height() + m_pageSpacing`
adds in `double` and converts the sum back to `int`. -/
def renderLoop (w : SequentialPageWidget) (bottom : Int) :
    Nat → Int → Int → Option (Int × List Effect)
  | 0, _, _ => none
  | fuel + 1, page, y =>
    if y < bottom ∧ page < w.pageCount then
      match w.pageSize page with
      | none => none
      | some size =>
        match renderLoop w bottom fuel (page + 1)
            (Double.toInt (Double.add (Double.ofInt y)
              (Double.add size.ht (Double.ofInt w.m_pageSpacing.val)))) with
        | none => none
        | some (last, effs) => some (last, paintPage w page y size ++ effs)
    else some (page, [])

/-- `paintEvent(event)`, for an event with rectangle `rect`. -/
def paintEvent (w : SequentialPageWidget) (rect : QRect) :
    Option (SequentialPageWidget × List Effect) :=
  if w.m_pageSizes.isEmpty then some (w, [Effect.fillBackground rect w.m_background])
  else
    match topLoop w rect.top (w.m_pageSizes.length + 1) 0 0 with
    | none => none
    | some (page, y) =>
      let w1 := { w with m_topPageShowing := page }
      match renderLoop w1 rect.bottom (w.m_pageSizes.length + 1) page
          (wrap32 (y + w.m_pageSpacing.val)) with
      | none => none
      | some (last, effs) =>
        let w2 := { w1 with m_bottomPageShowing := last - 1 }
        some (w2, Effect.fillBackground rect w.m_background :: effs ++
          [Effect.showingPageRange w2.m_topPageShowing w2.m_bottomPageShowing])

/-- The loop of `yForPage(endPage)`. -/
def yForPageLoop (w : SequentialPageWidget) (endPage : Int) : Nat → Int → Int → Option Int
  | 0, _, _ => none
  | fuel + 1, page, y =>
    if page < w.pageCount ∧ page < endPage then
      match w.pageSize page with
      | none => none
      | some size =>
        yForPageLoop w endPage fuel (page + 1)
          (wrap32 (y + wrap32 (size.toSize.ht + w.m_pageSpacing.val)))
    else some y

/-- The value of the `int y` that `yForPage(endPage)` returns. -/
def yForPageInt (w : SequentialPageWidget) (endPage : Int) : Option Int :=
  yForPageLoop w endPage (w.m_pageSizes.length + 1) 0 w.m_pageSpacing.val

/-- `yForPage(endPage)`; the `int` result is returned as a `qreal`. -/
def yForPage (w : SequentialPageWidget) (endPage : Int) : Option Double :=
  (yForPageInt w endPage).map Double.ofInt

/-- Integer pixel height of a page at the current zoom: `pageSize(page).toSize().height()`. -/
def pageHeight (w : SequentialPageWidget) (page : Int) : Option Int :=
  (w.pageSize page).map (fun s => s.toSize.ht)

end SequentialPageWidget

/-! ## Events delivered to the widget -/

/-- Calls the host, the document and the renderer make on the widget. -/
inductive Event where
  | setZoom (factor : Double)
  | documentStatusChanged (doc : QPdfDocument)
  | pageLoaded (page : Int) (zoom : Double) (image : QImage)
  | paintEvent (rect : QRect)

open SequentialPageWidget in
/-- One event: the new state and the effects. -/
def step (w : SequentialPageWidget) : Event → Option (SequentialPageWidget × List Effect)
  | Event.setZoom factor => setZoom w factor
  | Event.documentStatusChanged doc => documentStatusChanged w doc
  | Event.pageLoaded page zoom image => some (pageLoaded w page zoom image)
  | Event.paintEvent rect => paintEvent w rect

/-- A sequence of events, keeping the final state. -/
def run (w : SequentialPageWidget) : List Event → Option SequentialPageWidget
  | [] => some w
  | e :: es =>
    match step w e with
    | none => none
    | some (w1, _) => run w1 es

/-- States reachable from a freshly constructed widget. -/
def Reachable (w : SequentialPageWidget) : Prop :=
  ∃ (dpi : Double) (icon : QPixmap) (width bottom : Int) (es : List Event),
    run (SequentialPageWidget.new dpi icon width bottom) es = some w

/-- The pages of the render completions of an event sequence, oldest first. -/
def completions : List Event → List Int
  | [] => []
  | Event.pageLoaded page _ _ :: es => page :: completions es
  | _ :: es => completions es

/-! ## Vocabulary of the specification for the eviction order -/

/-- Position, in a history of completions (oldest first), of the most recent completion of
page `k`. -/
def lastCompletion : List Int → Int → Option Nat
  | [], _ => none
  | h :: t, k =>
    match lastCompletion t k with
    | some i => some (i + 1)
    | none => if h = k then some 0 else none

/-- Page `k` is the least-recently-requested page among the cached `keys`: it is cached and
its most recent completion is not later than that of any cached page. -/
def IsLeastRecentlyRequested (hist : List Int) (keys : List Int) (k : Int) : Prop :=
  k ∈ keys ∧ ∃ i, lastCompletion hist k = some i ∧
    ∀ k2 ∈ keys, ∀ j, lastCompletion hist k2 = some j → i ≤ j

/-! ## Reading the result of a paint -/

/-- The render requests among the effects, in order: page and resolution. -/
def requestsOf (effs : List Effect) : List (Int × Double) :=
  effs.filterMap (fun e =>
    match e with
    | Effect.requestPage page zoom => some (page, zoom)
    | _ => none)

/-- The `n` consecutive page indices starting at `first`. -/
def pagesFrom (first : Int) : Nat → List Int
  | 0 => []
  | n + 1 => first :: pagesFrom (first + 1) n

/-- The pages from `m_topPageShowing` to `m_bottomPageShowing`, both included. -/
def pagesShown (w : SequentialPageWidget) : List Int :=
  pagesFrom w.m_topPageShowing (w.m_bottomPageShowing + 1 - w.m_topPageShowing).toNat

/-! ## Example data -/

/-- A freshly constructed widget on a 72 dpi screen. -/
def fresh : SequentialPageWidget := SequentialPageWidget.new 72 ⟨16, 16⟩ 200 0

/-- Completion of a render of `page`, with a bitmap identified by the page. -/
def loaded (page : Nat) : Event := Event.pageLoaded page 1 ⟨10, 10, page⟩

/-- Completions for the 21 distinct pages 0, 1, ..., 20. -/
def loads21 : List Event := (List.range 21).map loaded

/-- Completions for pages 0, 1, ..., 19 followed by a second completion for page 0. -/
def loadsRepeat : List Event := (List.range 20).map loaded ++ [loaded 0]

/-- The state after the completions `loads21`. -/
def after21 : SequentialPageWidget := (run fresh loads21).getD fresh

/-- The state after the completions `loadsRepeat`. -/
def afterRepeat : SequentialPageWidget := (run fresh loadsRepeat).getD fresh

/-- The state after two completions for page 0. -/
def afterTwice : SequentialPageWidget := (run fresh [loaded 0, loaded 0]).getD fresh

/-- A ready document with three pages of heights 100, 150 and 120. -/
def scenarioDoc : QPdfDocument :=
  { status := Status.ready
    pageCount := 3
    pageSize := fun page =>
      if page = 0 then ⟨80, 100⟩ else if page = 1 then ⟨90, 150⟩ else ⟨70, 120⟩ }

/-- The fresh widget after it has read `scenarioDoc`: spacing 3, zoom 1, screen scale 1. -/
def scenario : SequentialPageWidget :=
  ((fresh.documentStatusChanged scenarioDoc).map Prod.fst).getD fresh

/-! ## Vocabulary of the specification for the layout -/

namespace SequentialPageWidget

/-- One spacing unit plus the sum of (integer pixel height + spacing) over all pages strictly
before `endPage`. -/
def yForPageSum (w : SequentialPageWidget) (endPage : Int) : Int :=
  w.m_pageSpacing.val +
    ((w.m_pageSizes.take endPage.toNat).map (fun s =>
      ((s.mul w.m_screenResolution).mul w.m_zoom).toSize.ht + w.m_pageSpacing.val)).sum

end SequentialPageWidget

/-! ## Invariant of the rendered-page cache -/

/-- What every reachable state satisfies, relative to the history `hist` of completions:
the order sequence is the tail end of the history, every cached key occurs in it, the map
has one entry per key, the limit is the constructor's, and the order sequence is at most
one longer than the limit. -/
def CacheInv (hist : List Int) (w : SequentialPageWidget) : Prop :=
  (∃ pre, hist = pre ++ w.m_cachedPagesLRU) ∧
  (∀ k ∈ w.m_pageCache.keys, k ∈ w.m_cachedPagesLRU) ∧
  w.m_pageCache.keys.Nodup ∧
  w.m_pageCacheLimit = 20 ∧
  (w.m_cachedPagesLRU.length : Int) ≤ w.m_pageCacheLimit + 1

/-! ## The top-page search of a paint -/

namespace SequentialPageWidget

/-- The part of `paintEvent` from `int page = 0; int y = 0;` to `y += m_pageSpacing;`: the
page that becomes `m_topPageShowing` and the value of `y` with which the render loop
starts. -/
def topSearch (w : SequentialPageWidget) (rect : QRect) : Option (Int × Int) :=
  match topLoop w rect.top (w.m_pageSizes.length + 1) 0 0 with
  | none => none
  | some (page, y) => some (page, wrap32 (y + w.m_pageSpacing.val))

/-- The accumulated offset of the pages before `page`: the sum of (integer pixel height +
spacing) over all pages strictly before it. -/
def offsetBefore (w : SequentialPageWidget) (page : Int) : Int :=
  ((w.m_pageSizes.take page.toNat).map (fun s =>
    ((s.mul w.m_screenResolution).mul w.m_zoom).toSize.ht + w.m_pageSpacing.val)).sum

/-- The accumulated offset of the pages before `page` plus the height of `page`, as an `int`,
reaches or exceeds `top`. -/
def ReachesTop (w : SequentialPageWidget) (top : Int) (page : Int) : Prop :=
  ∃ h, w.pageHeight page = some h ∧ wrap32 (w.offsetBefore page + h) ≥ top

/-- The value of `y` in the render loop of `paintEvent` after `k` steps, when the loop starts
at page `first` with `y = y0`: the y-offset at which page `first + k` is placed. Each step
adds the page height and the spacing in `double` and converts the sum to `int`. -/
def renderOffset (w : SequentialPageWidget) (first y0 : Int) : Nat → Option Int
  | 0 => some y0
  | k + 1 =>
    match renderOffset w first y0 k, w.pageSize (first + (k : Int)) with
    | some y, some size =>
      some (Double.toInt (Double.add (Double.ofInt y)
        (Double.add size.ht (Double.ofInt w.m_pageSpacing.val))))
    | _, _ => none

end SequentialPageWidget

/-- A ready document with three pages of height 1000000000. -/
def tallDoc : QPdfDocument :=
  { status := Status.ready
    pageCount := 3
    pageSize := fun _ => ⟨100, 1000000000⟩ }

/-- The fresh widget after it has read `tallDoc`. -/
def tallPages : SequentialPageWidget :=
  ((fresh.documentStatusChanged tallDoc).map Prod.fst).getD fresh

/-- A ready document with two pages of 595 by 842 points. -/
def a4Doc : QPdfDocument :=
  { status := Status.ready
    pageCount := 2
    pageSize := fun _ => ⟨595, 842⟩ }

/-- A widget on a 96 dpi screen that has read `a4Doc` and been zoomed to 1.5. -/
def a4Zoomed : SequentialPageWidget :=
  let w0 := SequentialPageWidget.new 96 ⟨16, 16⟩ 200 0
  let w1 := ((w0.documentStatusChanged a4Doc).map Prod.fst).getD w0
  ((w1.setZoom (Double.fin (3 / 2))).map Prod.fst).getD w1

/-- A ready document with one page of height 3000000000. -/
def hugeDoc : QPdfDocument :=
  { status := Status.ready
    pageCount := 1
    pageSize := fun _ => ⟨100, 3000000000⟩ }

/-- The fresh widget after it has read `hugeDoc`. -/
def hugePage : SequentialPageWidget :=
  ((fresh.documentStatusChanged hugeDoc).map Prod.fst).getD fresh

/-- The three-page widget after `setZoom(-1)`. -/
def zoomedNegative : SequentialPageWidget :=
  ((scenario.setZoom (-1)).map Prod.fst).getD scenario

/-! ## Machine arithmetic -/

/-- The result of an `int` operation is in the range of `int`. -/
theorem wrap32_inRange (n : Int) : IntRange (wrap32 n) := by
  unfold IntRange wrap32; omega

/-- An exact result inside the range of `int` is not changed. -/
theorem wrap32_of_inRange (n : Int) (h : IntRange n) : wrap32 n = n := by
  unfold IntRange at h; unfold wrap32; omega

/-- Adding an `int` result gives the `int` of the exact sum. -/
theorem wrap32_add_wrap32 (a b : Int) : wrap32 (a + wrap32 b) = wrap32 (a + b) := by
  unfold wrap32; omega

/-- Adding to an `int` result gives the `int` of the exact sum. -/
theorem wrap32_wrap32_add (a b : Int) : wrap32 (wrap32 a + b) = wrap32 (a + b) := by
  unfold wrap32; omega

namespace Double

/-- A `double` converted to `int` is in the range of `int`. -/
theorem toInt_inRange (d : Double) : IntRange (toInt d) := by
  cases d with
  | fin q =>
    simp only [toInt]
    split
    · assumption
    · unfold IntRange; omega
  | inf s => simp only [toInt]; unfold IntRange; omega
  | nan => simp only [toInt]; unfold IntRange; omega

/-- A number below `2 ^ k` has at most `k` binary digits. -/
theorem bitLength_le (fuel : Nat) : ∀ (n k : Nat), n < 2 ^ k → bitLength fuel n ≤ k := by
  induction fuel with
  | zero => intro n k _; simp [bitLength]
  | succ fuel ih =>
    intro n k h
    by_cases hn : n = 0
    · simp [bitLength, hn]
    · simp only [bitLength, hn, if_false]
      cases k with
      | zero => simp at h; omega
      | succ k =>
        have : n / 2 < 2 ^ k := by
          rw [Nat.pow_succ] at h; omega
        have := ih (n / 2) k this
        omega

/-- A positive number has at least one binary digit. -/
theorem bitLength_pos (n : Nat) (h : n ≠ 0) : 1 ≤ bitLength n n := by
  cases n with
  | zero => exact absurd rfl h
  | succ m => simp only [bitLength, h, if_false]; omega

/-- The exponent of a quotient with a numerator below `2 ^ 52` is at most 51. -/
theorem exponent_le (a b : Nat) (ha : a < 2 ^ 52) (hb : b ≠ 0) : exponent a b ≤ 51 := by
  have h1 := bitLength_le a a 52 ha
  have h2 := bitLength_pos b hb
  unfold exponent
  simp only
  split <;> omega

/-- Rounding of an exact quotient: when the denominator divides a power of two that the
rounding keeps, nothing is lost. -/
theorem roundHalfEven_of_dvd (num den : Nat) (hden : den ≠ 0) (h : den ∣ num) :
    roundHalfEven num den = num / den := by
  have hr : num % den = 0 := Nat.mod_eq_zero_of_dvd h
  have hpos : 0 < den := Nat.pos_of_ne_zero hden
  simp only [roundHalfEven, hr, Nat.mul_zero, hpos, if_true]

/-- A rational with numerator below `2 ^ 52` in absolute value and denominator 1 or 2 is a
binary64 number: rounding leaves it as it is. -/
theorem ofRat_exact (q : ℚ) (hnum : q.num.natAbs < 2 ^ 52) (hden : q.den ∣ 2) :
    ofRat q = fin q := by
  by_cases hq : q.num = 0
  · have : q = 0 := Rat.zero_of_num_zero hq
    subst this
    simp [ofRat]
  have ha : q.num.natAbs ≠ 0 := fun h => hq (Int.natAbs_eq_zero.1 h)
  have he := exponent_le q.num.natAbs q.den hnum q.den_nz
  obtain ⟨k, hk1, hk⟩ : ∃ k : Nat, 1 ≤ k ∧
      max (exponent q.num.natAbs q.den) (-1022) - 52 = -(k : Int) := by
    refine ⟨(52 - max (exponent q.num.natAbs q.den) (-1022)).toNat, ?_, ?_⟩ <;> omega
  have hdvd : q.den ∣ q.num.natAbs * 2 ^ k := by
    apply Dvd.dvd.mul_left
    exact dvd_trans hden (dvd_pow_self 2 (by omega))
  have hs1 : ¬ (0 : Int) ≤ -(k : Int) := by omega
  have hs2 : ¬ ((971 : Int) < -(k : Int) ∨ (-(k : Int) = 971 ∧
      2 ^ 53 ≤ roundHalfEven (q.num.natAbs * 2 ^ k) q.den)) := by omega
  have hk2 : (-(-(k : Int))).toNat = k := by omega
  unfold ofRat
  simp only [hq, if_false, hk, hs1, hk2, hs2]
  rw [roundHalfEven_of_dvd _ _ q.den_nz hdvd]
  congr 1
  have hval : (mkRat (Int.ofNat (q.num.natAbs * 2 ^ k / q.den)) (2 ^ k) : ℚ) = |q| := by
    rw [Rat.mkRat_eq_div]
    obtain ⟨c, hc⟩ := hdvd
    rw [hc, Nat.mul_div_cancel_left _ (Nat.pos_of_ne_zero q.den_nz)]
    have h2 : ((2 ^ k : Nat) : ℚ) ≠ 0 := by positivity
    have hd : (q.den : ℚ) ≠ 0 := by exact_mod_cast q.den_nz
    have hc2 : (q.num.natAbs : ℚ) * (2 ^ k : Nat) = (q.den : ℚ) * c := by exact_mod_cast hc
    have habs : |q| = (q.num.natAbs : ℚ) / q.den := by
      conv_lhs => rw [← Rat.num_div_den q]
      rw [abs_div, Nat.cast_natAbs, Int.cast_abs]
      simp
    rw [habs]
    push_cast
    field_simp
    push_cast at hc2
    linarith
  rw [hval]
  by_cases hneg : q < 0
  · simp only [hneg, if_true]; rw [abs_of_neg hneg]; ring
  · simp only [hneg, if_false]; exact abs_of_nonneg (not_lt.1 hneg)

/-- Half of an integer below `2 ^ 52` in absolute value is a binary64 number. -/
theorem ofRat_half (k : Int) (hk : k.natAbs < 2 ^ 52) :
    ofRat ((k : ℚ) / 2) = fin ((k : ℚ) / 2) := by
  apply ofRat_exact
  · have h1 : ((k : ℚ) / 2).num ∣ k := by
      have := Rat.num_dvd k (b := 2) (by norm_num)
      simpa [Rat.divInt_eq_div] using this
    by_cases hk0 : k = 0
    · subst hk0; simp
    · have := Int.natAbs_le_of_dvd_ne_zero h1 hk0
      omega
  · have h2 : (((k : ℚ) / 2).den : Int) ∣ 2 := by
      have := Rat.den_dvd k 2
      simpa [Rat.divInt_eq_div] using this
    exact_mod_cast h2

/-- Truncation of a finite value that is not negative is its floor. -/
theorem tdiv_eq_floor (q : ℚ) (h : 0 ≤ q) : Int.tdiv q.num (q.den : Int) = ⌊q⌋ := by
  rw [Int.tdiv_eq_ediv (Rat.num_nonneg.2 h) (Int.ofNat_nonneg _), Rat.floor_def]

/-- Conversion to `int` of an integer in range that has been converted to `double`. -/
theorem toInt_intCast (n : Int) (h : IntRange n) : toInt (fin (n : ℚ)) = n := by
  unfold IntRange at h
  simp only [toInt, Rat.num_intCast, Rat.den_intCast, Nat.cast_one, Int.tdiv_one, h, and_self,
    if_true]

/-- Conversion to `int` of an integer plus one half, when the integer is in range and not
negative. -/
theorem toInt_add_half (n : Int) (h0 : 0 ≤ n) (h : IntRange n) :
    toInt (fin ((n : ℚ) + 1 / 2)) = n := by
  unfold IntRange at h
  have hq : (0 : ℚ) ≤ (n : ℚ) + 1 / 2 := by
    have : (0 : ℚ) ≤ (n : ℚ) := by exact_mod_cast h0
    linarith
  have hf : ⌊(n : ℚ) + 1 / 2⌋ = n := by
    rw [Int.floor_eq_iff]
    constructor <;> norm_num
  simp only [toInt, tdiv_eq_floor _ hq, hf, h, and_self, if_true]

/-- An `int` converted to `double` keeps its value. -/
theorem ofInt_eq (n : Int) (h : n.natAbs < 2 ^ 51) : ofInt n = fin (n : ℚ) := by
  have := ofRat_half (2 * n) (by omega)
  have h2 : (((2 * n : Int)) : ℚ) / 2 = (n : ℚ) := by push_cast; ring
  rw [h2] at this
  exact this

end Double

/-- The result of `qRound` is in the range of `int`. -/
theorem qRound_inRange (d : Double) : IntRange (qRound d) := by
  unfold qRound
  split
  · exact Double.toInt_inRange _
  · exact wrap32_inRange _

/-- Rounding an `int` that has been converted to `double` gives the `int` back. -/
theorem qRound_ofInt (n : Int) (h : IntRange n) : qRound (Double.ofInt n) = n := by
  have hr := h
  unfold IntRange at hr
  have hn : Double.ofInt n = Double.fin (n : ℚ) := Double.ofInt_eq n (by omega)
  rw [hn]
  unfold qRound
  by_cases h0 : 0 ≤ n
  · have hge : Double.ge (Double.fin (n : ℚ)) 0 = true := by
      show Double.ge (Double.fin (n : ℚ)) (Double.fin ((0 : Nat) : ℚ)) = true
      simp only [Double.ge, Nat.cast_zero, decide_eq_true_eq]
      exact_mod_cast h0
    have hadd : Double.add (Double.fin (n : ℚ)) (Double.fin (1 / 2)) =
        Double.fin ((n : ℚ) + 1 / 2) := by
      have := Double.ofRat_half (2 * n + 1) (by omega)
      have h2 : (((2 * n + 1 : Int)) : ℚ) / 2 = (n : ℚ) + 1 / 2 := by push_cast; ring
      rw [h2] at this
      simp only [Double.add, this]
    rw [if_pos hge, hadd, Double.toInt_add_half n h0 h]
  · have hge : Double.ge (Double.fin (n : ℚ)) 0 = false := by
      show Double.ge (Double.fin (n : ℚ)) (Double.fin ((0 : Nat) : ℚ)) = false
      simp only [Double.ge, Nat.cast_zero, decide_eq_false_iff_not, not_le]
      exact_mod_cast (not_le.1 h0)
    have hsub : Double.sub (Double.fin (n : ℚ)) 1 = Double.fin (((n - 1 : Int)) : ℚ) := by
      have := Double.ofRat_half (2 * (n - 1)) (by omega)
      have h2 : (((2 * (n - 1) : Int)) : ℚ) / 2 = (((n - 1 : Int)) : ℚ) := by push_cast; ring
      rw [h2] at this
      show Double.add (Double.fin (n : ℚ)) (Double.neg (Double.fin ((1 : Nat) : ℚ))) = _
      simp only [Double.neg, Double.add]
      rw [← this]
      congr 1
      push_cast; ring
    have hhalf : ∀ m : Int, m.natAbs < 2 ^ 40 →
        Double.add (Double.fin (m : ℚ)) (Double.fin (1 / 2)) = Double.fin ((m : ℚ) + 1 / 2) := by
      intro m hm
      have := Double.ofRat_half (2 * m + 1) (by omega)
      have h2 : (((2 * m + 1 : Int)) : ℚ) / 2 = (m : ℚ) + 1 / 2 := by push_cast; ring
      rw [h2] at this
      simp only [Double.add, this]
    rw [hge]
    simp only [Bool.false_eq_true, if_false, hsub]
    by_cases hmin : n = -2147483648
    · subst hmin
      with_unfolding_all decide
    · have hr1 : IntRange (n - 1) := by unfold IntRange; omega
      rw [Double.toInt_intCast (n - 1) hr1, Double.ofInt_eq (n - 1) (by omega)]
      have hd : Double.sub (Double.fin (n : ℚ)) (Double.fin (((n - 1 : Int)) : ℚ)) =
          Double.fin ((1 : Int) : ℚ) := by
        have := Double.ofRat_half 2 (by decide)
        simp only [Double.sub, Double.neg, Double.add]
        have h2 : (n : ℚ) + -(((n - 1 : Int)) : ℚ) = ((2 : Int) : ℚ) / 2 := by push_cast; ring
        rw [h2, this]
        congr 1
        norm_num
      rw [hd, hhalf 1 (by decide), Double.toInt_add_half 1 (by decide) (by decide)]
      unfold wrap32; omega

/-! ## The map operations -/

namespace PageCache

theorem mem_keys_remove (m : PageCache) (k k2 : Int) :
    k2 ∈ keys (remove m k) ↔ k2 ∈ keys m ∧ k2 ≠ k := by
  induction m with
  | nil => simp [keys, remove]
  | cons e m ih =>
    simp only [keys, remove] at ih
    by_cases h : e.1 = k
    · simp only [keys, remove, List.filter_cons, h, ne_eq, not_true_eq_false, decide_False,
        Bool.false_eq_true, if_false, List.map_cons, List.mem_cons]
      rw [ih]
      constructor
      · rintro ⟨h1, h2⟩; exact ⟨Or.inr h1, h2⟩
      · rintro ⟨h1 | h1, h2⟩
        · exact absurd h1 h2
        · exact ⟨h1, h2⟩
    · simp only [keys, remove, List.filter_cons, h, ne_eq, not_false_eq_true, decide_True,
        if_true, List.map_cons, List.mem_cons]
      rw [ih]
      constructor
      · rintro (h1 | ⟨h1, h2⟩)
        · exact ⟨Or.inl h1, by rw [h1]; exact h⟩
        · exact ⟨Or.inr h1, h2⟩
      · rintro ⟨h1 | h1, h2⟩
        · exact Or.inl h1
        · exact Or.inr ⟨h1, h2⟩

theorem mem_keys_insert (m : PageCache) (k : Int) (v : QImage) (k2 : Int) :
    k2 ∈ keys (insert m k v) ↔ k2 = k ∨ k2 ∈ keys m := by
  have h := mem_keys_remove m k k2
  simp only [keys, insert, List.map_cons, List.mem_cons] at h ⊢
  rw [h]
  by_cases hk : k2 = k <;> simp [hk]

theorem value_insert_self (m : PageCache) (k : Int) (v : QImage) :
    value (insert m k v) k = some v := by
  simp [value, insert]

theorem nodup_remove (m : PageCache) (k : Int) (h : (keys m).Nodup) :
    (keys (remove m k)).Nodup := by
  induction m with
  | nil => simp [keys, remove]
  | cons e m ih =>
    have h1 : e.1 ∉ keys m ∧ (keys m).Nodup := by
      simpa [keys] using h
    by_cases he : e.1 = k
    · have : remove (e :: m) k = remove m k := by simp [remove, List.filter_cons, he]
      rw [this]; exact ih h1.2
    · have : remove (e :: m) k = e :: remove m k := by simp [remove, List.filter_cons, he]
      rw [this]
      have hnot : e.1 ∉ keys (remove m k) := fun hc => h1.1 ((mem_keys_remove m k e.1).1 hc).1
      have ih2 := ih h1.2
      simp only [keys, List.map_cons, List.nodup_cons] at hnot ih2 ⊢
      exact ⟨hnot, ih2⟩

theorem nodup_insert (m : PageCache) (k : Int) (v : QImage) (h : (keys m).Nodup) :
    (keys (insert m k v)).Nodup := by
  have h1 := nodup_remove m k h
  have h2 : k ∉ keys (remove m k) := fun hc => ((mem_keys_remove m k k).1 hc).2 rfl
  simp only [keys, insert, List.map_cons, List.nodup_cons] at h1 h2 ⊢
  exact ⟨h2, h1⟩

theorem size_remove_le (m : PageCache) (k : Int) : size (remove m k) ≤ size m := by
  simp only [size, remove]
  exact List.length_filter_le _ _

end PageCache

/-! ## The completion handler -/

namespace SequentialPageWidget

/-- Below or at the limit, `pageLoaded` only inserts and appends. -/
theorem pageLoaded_keep (w : SequentialPageWidget) (page : Int) (zoom : Double) (image : QImage)
    (h : ¬ (w.m_cachedPagesLRU.length : Int) > w.m_pageCacheLimit) :
    (pageLoaded w page zoom image).1 =
      { w with m_pageCache := w.m_pageCache.insert page image
               m_cachedPagesLRU := w.m_cachedPagesLRU ++ [page] } := by
  simp only [pageLoaded, h, if_false]

/-- Above the limit, `pageLoaded` first takes the head of the order sequence and removes it
from the map. -/
theorem pageLoaded_evict (w : SequentialPageWidget) (page : Int) (zoom : Double) (image : QImage)
    (first : Int) (rest : List Int) (hl : w.m_cachedPagesLRU = first :: rest)
    (h : (w.m_cachedPagesLRU.length : Int) > w.m_pageCacheLimit) :
    (pageLoaded w page zoom image).1 =
      { w with m_pageCache := (w.m_pageCache.remove first).insert page image
               m_cachedPagesLRU := rest ++ [page] } := by
  simp only [pageLoaded]
  rw [if_pos h]
  simp only [hl]

/-- A key the handler removes from the map is the head of the order sequence, and the
sequence was longer than the limit. -/
theorem pageLoaded_lost_key (w : SequentialPageWidget) (page : Int) (zoom : Double) (image : QImage)
    (k : Int) (hk : k ∈ w.m_pageCache.keys)
    (hk2 : k ∉ (pageLoaded w page zoom image).1.m_pageCache.keys) :
    w.m_cachedPagesLRU.head? = some k ∧ (w.m_cachedPagesLRU.length : Int) > w.m_pageCacheLimit := by
  by_cases h : (w.m_cachedPagesLRU.length : Int) > w.m_pageCacheLimit
  · cases hl : w.m_cachedPagesLRU with
    | nil =>
      exfalso; apply hk2
      have : (pageLoaded w page zoom image).1.m_pageCache = w.m_pageCache.insert page image := by
        simp only [pageLoaded]
        rw [if_pos h]
        simp only [hl]
      rw [this, PageCache.mem_keys_insert]; exact Or.inr hk
    | cons first rest =>
      rw [pageLoaded_evict w page zoom image first rest hl h] at hk2
      simp only [PageCache.mem_keys_insert, PageCache.mem_keys_remove, not_or, not_and,
        ne_eq, not_not] at hk2
      refine ⟨?_, by rw [← hl]; exact h⟩
      simp only [List.head?_cons, Option.some.injEq]
      exact (hk2.2 hk).symm
  · exfalso; apply hk2
    rw [pageLoaded_keep w page zoom image h]
    simp only [PageCache.mem_keys_insert]; exact Or.inr hk

/-- The handler leaves `page` mapped to `image`. -/
theorem pageLoaded_value (w : SequentialPageWidget) (page : Int) (zoom : Double) (image : QImage) :
    (pageLoaded w page zoom image).1.m_pageCache.value page = some image := by
  by_cases h : (w.m_cachedPagesLRU.length : Int) > w.m_pageCacheLimit
  · cases hl : w.m_cachedPagesLRU with
    | nil =>
      have : (pageLoaded w page zoom image).1.m_pageCache = w.m_pageCache.insert page image := by
        simp only [pageLoaded]
        rw [if_pos h]
        simp only [hl]
      rw [this]; exact PageCache.value_insert_self _ _ _
    | cons first rest =>
      rw [pageLoaded_evict w page zoom image first rest hl h]
      exact PageCache.value_insert_self _ _ _
  · rw [pageLoaded_keep w page zoom image h]
    exact PageCache.value_insert_self _ _ _

/-- The handler changes only the map and the order sequence. -/
theorem pageLoaded_frame (w : SequentialPageWidget) (page : Int) (zoom : Double) (image : QImage) :
    ∃ c l, (pageLoaded w page zoom image).1 = { w with m_pageCache := c, m_cachedPagesLRU := l } := by
  by_cases h : (w.m_cachedPagesLRU.length : Int) > w.m_pageCacheLimit
  · cases hl : w.m_cachedPagesLRU with
    | nil =>
      refine ⟨w.m_pageCache.insert page image, [] ++ [page], ?_⟩
      simp only [pageLoaded]
      rw [if_pos h]
      simp only [hl]
    | cons first rest => exact ⟨_, _, pageLoaded_evict w page zoom image first rest hl h⟩
  · exact ⟨_, _, pageLoaded_keep w page zoom image h⟩

/-- The handler preserves the cache invariant and extends the history by `page`. -/
theorem pageLoaded_inv (hist : List Int) (w : SequentialPageWidget) (page : Int) (zoom : Double)
    (image : QImage) (hinv : CacheInv hist w) :
    CacheInv (hist ++ [page]) (pageLoaded w page zoom image).1 := by
  obtain ⟨⟨pre, hpre⟩, hsub, hnd, hlim, hlen⟩ := hinv
  by_cases h : (w.m_cachedPagesLRU.length : Int) > w.m_pageCacheLimit
  · cases hl : w.m_cachedPagesLRU with
    | nil => rw [hl] at h; simp only [List.length_nil] at h; omega
    | cons first rest =>
      rw [pageLoaded_evict w page zoom image first rest hl h]
      rw [hl] at hpre hsub hlen
      refine ⟨⟨pre ++ [first], by simp [hpre]⟩, ?_, ?_, hlim, ?_⟩
      · intro k hk
        simp only [PageCache.mem_keys_insert, PageCache.mem_keys_remove] at hk
        simp only [List.mem_append, List.mem_singleton]
        rcases hk with hk | ⟨hk, hne⟩
        · exact Or.inr hk
        · have := hsub k hk
          simp only [List.mem_cons] at this
          rcases this with this | this
          · exact absurd this hne
          · exact Or.inl this
      · exact PageCache.nodup_insert _ _ _ (PageCache.nodup_remove _ _ hnd)
      · simp only [List.length_append, List.length_cons, List.length_nil] at hlen ⊢
        push_cast at hlen ⊢; omega
  · rw [pageLoaded_keep w page zoom image h]
    refine ⟨⟨pre, by simp [hpre]⟩, ?_, ?_, hlim, ?_⟩
    · intro k hk
      simp only [PageCache.mem_keys_insert] at hk
      simp only [List.mem_append, List.mem_singleton]
      rcases hk with hk | hk
      · exact Or.inr hk
      · exact Or.inl (hsub k hk)
    · exact PageCache.nodup_insert _ _ _ hnd
    · simp only [List.length_append, List.length_cons, List.length_nil]
      push_cast; omega

end SequentialPageWidget

/-! ## Page sizes and re-layout -/

namespace SequentialPageWidget

/-- Inside the list, `pageSize` is the stored size times the screen scale times the zoom. -/
theorem pageSize_of_lt (w : SequentialPageWidget) (i : Nat) (h : i < w.m_pageSizes.length) :
    w.pageSize (i : Int) =
      some (((w.m_pageSizes.get ⟨i, h⟩).mul w.m_screenResolution).mul w.m_zoom) := by
  have h0 : (0 : Int) ≤ (i : Int) := Int.ofNat_nonneg i
  simp only [pageSize, h0, if_true, Int.toNat_ofNat, List.getElem?_eq_getElem h, Option.map_some',
    List.get_eq_getElem]

/-- Outside the list, `pageSize` has no value. -/
theorem pageSize_none_of_ge (w : SequentialPageWidget) (page : Int) (h : w.pageCount ≤ page) :
    w.pageSize page = none := by
  have h0 : (0 : Int) ≤ page := le_trans (Int.ofNat_nonneg _) h
  have h1 : w.m_pageSizes.length ≤ page.toNat := by
    simp only [pageCount] at h; omega
  simp only [pageSize, h0, if_true, List.getElem?_eq_none h1, Option.map_none']

/-- The loop of `invalidate` ends with a value when started inside the list with enough
fuel. -/
theorem invalidateLoop_total (w : SequentialPageWidget) :
    ∀ (fuel i : Nat) (total : QSizeF), i ≤ w.m_pageSizes.length →
      w.m_pageSizes.length < i + fuel → ∃ t, invalidateLoop w fuel (i : Int) total = some t := by
  intro fuel
  induction fuel with
  | zero => intro i total h1 h2; omega
  | succ fuel ih =>
    intro i total h1 h2
    by_cases hlt : i < w.m_pageSizes.length
    · have hc : ((i : Int) < w.pageCount) := by simp only [pageCount]; exact_mod_cast hlt
      simp only [invalidateLoop, hc, if_true, pageSize_of_lt w i hlt]
      have hcast : ((i : Int) + 1) = ((i + 1 : Nat) : Int) := by push_cast; rfl
      rw [hcast]
      exact ih (i + 1) _ (by omega) (by omega)
    · have hc : ¬ ((i : Int) < w.pageCount) := by
        simp only [pageCount]; intro hx; exact hlt (by exact_mod_cast hx)
      exact ⟨total, by simp only [invalidateLoop, hc, if_false]⟩

/-- `invalidate` always returns: it stores the rounded total, empties the map, and emits
its three effects. -/
theorem invalidate_spec (w : SequentialPageWidget) :
    ∃ t, invalidateLoop w (w.m_pageSizes.length + 1) 0
        ⟨Double.ofInt 0, Double.ofInt w.m_pageSpacing.val⟩ = some t ∧
      invalidate w = some ({ w with m_totalSize := t.toSize, m_pageCache := [] },
        [Effect.setMinimumSize t.toSize, Effect.zoomChanged w.m_zoom, Effect.update]) := by
  obtain ⟨t, ht⟩ := invalidateLoop_total w (w.m_pageSizes.length + 1) 0
    ⟨Double.ofInt 0, Double.ofInt w.m_pageSpacing.val⟩ (Nat.zero_le _) (by omega)
  simp only [Nat.cast_zero] at ht
  exact ⟨t, ht, by simp only [invalidate, ht]⟩

/-- `setZoom` always returns: the state of `invalidate` at the new zoom. -/
theorem setZoom_spec (w : SequentialPageWidget) (factor : Double) :
    ∃ t effs, setZoom w factor =
      some ({ w with m_zoom := factor, m_totalSize := t, m_pageCache := [] }, effs) := by
  obtain ⟨t, _, h⟩ := invalidate_spec { w with m_zoom := factor }
  exact ⟨t.toSize, _, by unfold setZoom; rw [h]⟩

/-- `documentStatusChanged` always returns: page sizes reloaded or emptied, top index reset,
then the state of `invalidate`. -/
theorem documentStatusChanged_spec (w : SequentialPageWidget) (doc : QPdfDocument) :
    ∃ t effs, documentStatusChanged w doc =
      some ({ w with
          m_pageSizes :=
            if doc.status = Status.ready then
              (List.range doc.pageCount.toNat).map (fun (page : Nat) => doc.pageSize (page : Int))
            else []
          m_topPageShowing := 0
          m_totalSize := t
          m_pageCache := [] }, effs) := by
  by_cases hs : doc.status = Status.ready
  · obtain ⟨t, _, h⟩ := invalidate_spec { w with
        m_pageSizes := (List.range doc.pageCount.toNat).map (fun (page : Nat) => doc.pageSize (page : Int))
        m_topPageShowing := 0 }
    refine ⟨t.toSize, [Effect.setMinimumSize t.toSize, Effect.zoomChanged w.m_zoom,
      Effect.update], ?_⟩
    unfold documentStatusChanged
    simp only [if_pos hs]
    rw [h]
  · obtain ⟨t, _, h⟩ := invalidate_spec { w with m_pageSizes := [], m_topPageShowing := 0 }
    refine ⟨t.toSize, [Effect.setMinimumSize t.toSize, Effect.zoomChanged w.m_zoom,
      Effect.update], ?_⟩
    unfold documentStatusChanged
    simp only [if_neg hs]
    rw [h]

end SequentialPageWidget

/-! ## Painting -/

theorem mem_pagesFrom (first : Int) (n : Nat) (p : Int) :
    p ∈ pagesFrom first n ↔ first ≤ p ∧ p < first + n := by
  induction n generalizing first with
  | zero => simp only [pagesFrom, List.not_mem_nil, Nat.cast_zero, add_zero, false_iff]; omega
  | succ n ih =>
    simp only [pagesFrom, List.mem_cons, ih, Nat.cast_add, Nat.cast_one]
    omega

theorem requestsOf_append (a b : List Effect) :
    requestsOf (a ++ b) = requestsOf a ++ requestsOf b := by
  simp only [requestsOf, List.filterMap_append]

theorem mem_requestsOf (effs : List Effect) (page : Int) (zoom : Double) :
    (page, zoom) ∈ requestsOf effs ↔ Effect.requestPage page zoom ∈ effs := by
  simp only [requestsOf, List.mem_filterMap]
  constructor
  · rintro ⟨e, he, h⟩
    cases e <;> simp only [Option.some.injEq, Prod.mk.injEq, reduceCtorEq] at h
    obtain ⟨rfl, rfl⟩ := h
    exact he
  · intro h
    exact ⟨_, h, rfl⟩

namespace SequentialPageWidget

/-- A page found in the map is painted with its bitmap and is not requested; any other page
gets exactly one request, at screen scale times zoom. -/
theorem requestsOf_paintPage (w : SequentialPageWidget) (page y : Int) (size : QSizeF) :
    requestsOf (paintPage w page y size) =
      if w.m_pageCache.contains page then []
      else [(page, Double.mul w.m_screenResolution w.m_zoom)] := by
  by_cases h : w.m_pageCache.contains page = true
  · simp [paintPage, h, requestsOf]
  · simp [paintPage, h, requestsOf]

/-- The first loop of `paintEvent` ends with a page index inside `[i, pageCount]`. -/
theorem topLoop_total (w : SequentialPageWidget) (top : Int) :
    ∀ (fuel i : Nat) (y : Int), i ≤ w.m_pageSizes.length → w.m_pageSizes.length < i + fuel →
      ∃ (p : Nat) (y2 : Int), topLoop w top fuel (i : Int) y = some ((p : Int), y2) ∧
        i ≤ p ∧ p ≤ w.m_pageSizes.length := by
  intro fuel
  induction fuel with
  | zero => intro i y h1 h2; omega
  | succ fuel ih =>
    intro i y h1 h2
    by_cases hlt : i < w.m_pageSizes.length
    · have hc : ((i : Int) < w.pageCount) := by simp only [pageCount]; exact_mod_cast hlt
      simp only [topLoop, hc, if_true, pageSize_of_lt w i hlt]
      split
      · exact ⟨i, y, rfl, le_refl _, h1⟩
      · have hcast : ((i : Int) + 1) = ((i + 1 : Nat) : Int) := by push_cast; rfl
        rw [hcast]
        obtain ⟨p, y2, h, hp1, hp2⟩ := ih (i + 1) (wrap32 (y + wrap32
          ((((w.m_pageSizes.get ⟨i, hlt⟩).mul w.m_screenResolution).mul w.m_zoom).toSize.ht +
            w.m_pageSpacing.val))) (by omega) (by omega)
        exact ⟨p, y2, h, by omega, hp2⟩
    · have hc : ¬ ((i : Int) < w.pageCount) := by
        simp only [pageCount]; intro hx; exact hlt (by exact_mod_cast hx)
      exact ⟨i, y, by simp only [topLoop, hc, if_false], le_refl _, h1⟩

/-- The offsets of the render loop started one page later, after the first step. -/
theorem renderOffset_succ (w : SequentialPageWidget) (i : Nat) (y : Int) (size : QSizeF)
    (hs : w.pageSize (i : Int) = some size) :
    ∀ k : Nat, renderOffset w (i : Int) y (k + 1) =
      renderOffset w ((i + 1 : Nat) : Int)
        (Double.toInt (Double.add (Double.ofInt y)
          (Double.add size.ht (Double.ofInt w.m_pageSpacing.val)))) k := by
  intro k
  induction k with
  | zero =>
    simp only [renderOffset, Nat.cast_zero, add_zero, hs]
  | succ k ih =>
    have hcast : (i : Int) + ((k + 1 : Nat) : Int) = ((i + 1 : Nat) : Int) + (k : Int) := by
      push_cast; ring
    rw [renderOffset, ih, hcast]
    rfl

/-- The second loop of `paintEvent` ends at a page index `last` inside `[i, pageCount]`; its
requests are those of the pages `i, ..., last - 1` that are not in the map, in order; each of
these pages is placed at its render offset, which is below `bottom`, and its painter calls
are among the effects; and when the loop stops before the page count, the offset of the page
it stops at is not below `bottom`. -/
theorem renderLoop_spec (w : SequentialPageWidget) (bottom : Int) :
    ∀ (fuel i : Nat) (y : Int), i ≤ w.m_pageSizes.length → w.m_pageSizes.length < i + fuel →
      ∃ (last : Nat) (effs : List Effect),
        renderLoop w bottom fuel (i : Int) y = some ((last : Int), effs) ∧
        i ≤ last ∧ last ≤ w.m_pageSizes.length ∧
        requestsOf effs =
          ((pagesFrom (i : Int) (last - i)).filter (fun p => !w.m_pageCache.contains p)).map
            (fun p => (p, Double.mul w.m_screenResolution w.m_zoom)) ∧
        (∀ k : Nat, k < last - i → ∃ yk size, renderOffset w (i : Int) y k = some yk ∧
          yk < bottom ∧ w.pageSize ((i : Int) + (k : Int)) = some size ∧
          ∀ e ∈ paintPage w ((i : Int) + (k : Int)) yk size, e ∈ effs) ∧
        (last < w.m_pageSizes.length →
          ∃ yl, renderOffset w (i : Int) y (last - i) = some yl ∧ ¬ yl < bottom) ∧
        (∀ e ∈ effs, ∃ p y2 size, p ∈ pagesFrom (i : Int) (last - i) ∧
          e ∈ paintPage w p y2 size) := by
  intro fuel
  induction fuel with
  | zero => intro i y h1 h2; omega
  | succ fuel ih =>
    intro i y h1 h2
    by_cases hc : y < bottom ∧ (i : Int) < w.pageCount
    · have hlt : i < w.m_pageSizes.length := by
        have := hc.2; simp only [pageCount] at this; exact_mod_cast this
      have hcast : ((i : Int) + 1) = ((i + 1 : Nat) : Int) := by push_cast; rfl
      have hsize := pageSize_of_lt w i hlt
      obtain ⟨last, effs, h, hl1, hl2, hreq, hoff, hstop, hsrc⟩ := ih (i + 1)
        (Double.toInt (Double.add (Double.ofInt y)
          (Double.add (((w.m_pageSizes.get ⟨i, hlt⟩).mul w.m_screenResolution).mul w.m_zoom).ht
            (Double.ofInt w.m_pageSpacing.val)))) (by omega) (by omega)
      have hsub : last - i = (last - (i + 1)) + 1 := by omega
      refine ⟨last, paintPage w i y (((w.m_pageSizes.get ⟨i, hlt⟩).mul w.m_screenResolution).mul
        w.m_zoom) ++ effs, ?_, by omega, hl2, ?_, ?_, ?_, ?_⟩
      · simp only [renderLoop, hc, and_self, if_true, hsize]
        rw [hcast, h]
      · rw [requestsOf_append, hreq, requestsOf_paintPage, hsub, pagesFrom, hcast]
        by_cases hcont : w.m_pageCache.contains (i : Int) = true
        · simp [hcont]
        · simp [hcont]
      · intro k hk
        cases k with
        | zero =>
          refine ⟨y, (((w.m_pageSizes.get ⟨i, hlt⟩).mul w.m_screenResolution).mul w.m_zoom),
            rfl, hc.1, ?_, ?_⟩
          · simpa using hsize
          · intro e he
            simp only [Nat.cast_zero, add_zero] at he
            exact List.mem_append_left _ he
        | succ k =>
          obtain ⟨yk, size, ho, hb, hs, hd⟩ := hoff k (by omega)
          have hidx : (i : Int) + ((k + 1 : Nat) : Int) = ((i + 1 : Nat) : Int) + (k : Int) := by
            push_cast; ring
          rw [hidx, renderOffset_succ w i y _ hsize k]
          exact ⟨yk, size, ho, hb, hs, fun e he => List.mem_append_right _ (hd e he)⟩
      · intro hl
        obtain ⟨yl, ho, hb⟩ := hstop hl
        rw [hsub, renderOffset_succ w i y _ hsize]
        exact ⟨yl, ho, hb⟩
      · intro e he
        rw [List.mem_append] at he
        rcases he with he | he
        · exact ⟨i, y, _, by rw [hsub, pagesFrom]; exact List.mem_cons_self _ _, he⟩
        · obtain ⟨p, y2, size, hp, hd⟩ := hsrc e he
          refine ⟨p, y2, size, ?_, hd⟩
          rw [hsub, pagesFrom, hcast]
          exact List.mem_cons_of_mem _ hp
    · refine ⟨i, [], by simp only [renderLoop, hc, if_false], le_refl _, h1, ?_, ?_, ?_, ?_⟩
      · simp [pagesFrom, requestsOf]
      · intro k hk; omega
      · intro hl
        refine ⟨y, by simp only [Nat.sub_self, renderOffset], ?_⟩
        intro hy
        apply hc
        exact ⟨hy, by simp only [pageCount]; exact_mod_cast hl⟩
      · intro e he; simp at he

/-- With no page sizes, `paintEvent` only fills the background. -/
theorem paintEvent_empty (w : SequentialPageWidget) (rect : QRect) (h : w.m_pageSizes = []) :
    paintEvent w rect = some (w, [Effect.fillBackground rect w.m_background]) := by
  simp only [paintEvent, h, List.isEmpty_nil, if_true]

/-- With page sizes, `paintEvent` returns: it stores `top` and `last - 1`, and its effects
are the background fill, the effects of the pages `top, ..., last - 1`, and the
notification. -/
theorem paintEvent_nonempty (w : SequentialPageWidget) (rect : QRect) (h : w.m_pageSizes ≠ []) :
    ∃ (top last : Nat) (effs : List Effect),
      top ≤ last ∧ last ≤ w.m_pageSizes.length ∧
      paintEvent w rect =
        some ({ w with m_topPageShowing := (top : Int), m_bottomPageShowing := (last : Int) - 1 },
          Effect.fillBackground rect w.m_background :: effs ++
            [Effect.showingPageRange (top : Int) ((last : Int) - 1)]) ∧
      requestsOf effs =
        ((pagesFrom (top : Int) (last - top)).filter (fun p => !w.m_pageCache.contains p)).map
          (fun p => (p, Double.mul w.m_screenResolution w.m_zoom)) ∧
      (∀ p ∈ pagesFrom (top : Int) (last - top), ∃ y2 size, w.pageSize p = some size ∧
        ∀ e ∈ paintPage w p y2 size, e ∈ effs) ∧
      (∀ e ∈ effs, ∃ p y2 size, p ∈ pagesFrom (top : Int) (last - top) ∧
        e ∈ paintPage w p y2 size) := by
  obtain ⟨top, y, ht, _, ht2⟩ := topLoop_total w rect.top (w.m_pageSizes.length + 1) 0 0
    (Nat.zero_le _) (by omega)
  simp only [Nat.cast_zero] at ht
  obtain ⟨last, effs, hr, hl1, hl2, hreq, hoff, _, hsrc⟩ :=
    renderLoop_spec { w with m_topPageShowing := (top : Int) } rect.bottom
      (w.m_pageSizes.length + 1) top (wrap32 (y + w.m_pageSpacing.val)) ht2
      (by show w.m_pageSizes.length < top + (w.m_pageSizes.length + 1); omega)
  have hdraw : ∀ p ∈ pagesFrom (top : Int) (last - top), ∃ y2 size, w.pageSize p = some size ∧
      ∀ e ∈ paintPage w p y2 size, e ∈ effs := by
    intro p hp
    have hb := (mem_pagesFrom _ _ _).1 hp
    obtain ⟨yk, size, _, _, hs, hd⟩ := hoff (p - (top : Int)).toNat (by omega)
    have hidx : (top : Int) + (((p - (top : Int)).toNat : Nat) : Int) = p := by omega
    rw [hidx] at hs hd
    exact ⟨yk, size, hs, hd⟩
  refine ⟨top, last, effs, hl1, hl2, ?_, hreq, hdraw, hsrc⟩
  have hne : w.m_pageSizes.isEmpty = false := by
    cases hp : w.m_pageSizes with
    | nil => exact absurd hp h
    | cons a l => rfl
  unfold paintEvent
  simp only [hne, Bool.false_eq_true, if_false, ht]
  rw [hr]

/-- A paint changes only the two visible-range members. -/
theorem paintEvent_frame (w w2 : SequentialPageWidget) (rect : QRect) (effs : List Effect)
    (h : paintEvent w rect = some (w2, effs)) :
    ∃ a b, w2 = { w with m_topPageShowing := a, m_bottomPageShowing := b } := by
  by_cases he : w.m_pageSizes = []
  · rw [paintEvent_empty w rect he] at h
    simp only [Option.some.injEq, Prod.mk.injEq] at h
    exact ⟨w.m_topPageShowing, w.m_bottomPageShowing, h.1.symm⟩
  · obtain ⟨top, last, effs2, _, _, hp, _⟩ := paintEvent_nonempty w rect he
    rw [hp] at h
    simp only [Option.some.injEq, Prod.mk.injEq] at h
    exact ⟨_, _, h.1.symm⟩

end SequentialPageWidget

/-! ## The invariant along event sequences -/

theorem completions_append (a b : List Event) :
    completions (a ++ b) = completions a ++ completions b := by
  induction a with
  | nil => rfl
  | cons e a ih => cases e <;> simp [completions, ih]

open SequentialPageWidget in
/-- Every event preserves the cache invariant; a completion extends the history. -/
theorem step_inv (hist : List Int) (w w2 : SequentialPageWidget) (e : Event)
    (effs : List Effect) (hinv : CacheInv hist w) (h : step w e = some (w2, effs)) :
    CacheInv (hist ++ completions [e]) w2 := by
  cases e with
  | setZoom factor =>
    obtain ⟨t, effs2, hs⟩ := setZoom_spec w factor
    simp only [step, hs, Option.some.injEq, Prod.mk.injEq] at h
    obtain ⟨⟨pre, hpre⟩, _, _, hlim, hlen⟩ := hinv
    rw [← h.1]
    exact ⟨⟨pre, by simpa [completions] using hpre⟩, by simp [PageCache.keys],
      by simp [PageCache.keys], hlim, hlen⟩
  | documentStatusChanged doc =>
    obtain ⟨t, effs2, hs⟩ := documentStatusChanged_spec w doc
    simp only [step, hs, Option.some.injEq, Prod.mk.injEq] at h
    obtain ⟨⟨pre, hpre⟩, _, _, hlim, hlen⟩ := hinv
    rw [← h.1]
    exact ⟨⟨pre, by simpa [completions] using hpre⟩, by simp [PageCache.keys],
      by simp [PageCache.keys], hlim, hlen⟩
  | pageLoaded page zoom image =>
    simp only [step, Option.some.injEq] at h
    have := pageLoaded_inv hist w page zoom image hinv
    rw [h] at this
    simpa [completions] using this
  | paintEvent rect =>
    obtain ⟨a, b, hw⟩ := paintEvent_frame w w2 rect effs h
    obtain ⟨⟨pre, hpre⟩, hsub, hnd, hlim, hlen⟩ := hinv
    rw [hw]
    exact ⟨⟨pre, by simpa [completions] using hpre⟩, hsub, hnd, hlim, hlen⟩

/-- The invariant holds after any event sequence that starts in a state satisfying it. -/
theorem run_inv (es : List Event) :
    ∀ (hist : List Int) (w w2 : SequentialPageWidget), CacheInv hist w → run w es = some w2 →
      CacheInv (hist ++ completions es) w2 := by
  induction es with
  | nil =>
    intro hist w w2 hinv h
    simp only [run, Option.some.injEq] at h
    rw [← h]; simpa [completions] using hinv
  | cons e es ih =>
    intro hist w w2 hinv h
    simp only [run] at h
    cases hs : step w e with
    | none => rw [hs] at h; exact absurd h (by simp)
    | some r =>
      obtain ⟨w1, effs⟩ := r
      rw [hs] at h
      have h1 := step_inv hist w w1 e effs hinv hs
      have h2 := ih _ w1 w2 h1 h
      have : completions (e :: es) = completions [e] ++ completions es :=
        completions_append [e] es
      rw [this, ← List.append_assoc]; exact h2

/-- The invariant holds in a freshly constructed widget, with the empty history. -/
theorem new_inv (dpi : Double) (icon : QPixmap) (width bottom : Int) :
    CacheInv [] (SequentialPageWidget.new dpi icon width bottom) :=
  ⟨⟨[], rfl⟩, by simp [SequentialPageWidget.new, PageCache.keys],
    by simp [SequentialPageWidget.new, PageCache.keys], rfl,
    by simp [SequentialPageWidget.new]⟩

/-- The invariant holds in every reachable state, with the history of its completions. -/
theorem reachable_inv (dpi : Double) (icon : QPixmap) (width bottom : Int) (es : List Event)
    (w : SequentialPageWidget)
    (h : run (SequentialPageWidget.new dpi icon width bottom) es = some w) :
    CacheInv (completions es) w := by
  have := run_inv es [] _ w (new_inv dpi icon width bottom) h
  simpa using this

/-- Every event sequence runs to a state: no access leaves the page list and no loop runs
out of fuel. -/
theorem run_total (es : List Event) : ∀ w : SequentialPageWidget, ∃ w2, run w es = some w2 := by
  induction es with
  | nil => intro w; exact ⟨w, rfl⟩
  | cons e es ih =>
    intro w
    have hstep : ∃ r, step w e = some r := by
      cases e with
      | setZoom factor =>
        obtain ⟨t, effs, h⟩ := SequentialPageWidget.setZoom_spec w factor
        exact ⟨_, h⟩
      | documentStatusChanged doc =>
        obtain ⟨t, effs, h⟩ := SequentialPageWidget.documentStatusChanged_spec w doc
        exact ⟨_, h⟩
      | pageLoaded page zoom image => exact ⟨_, rfl⟩
      | paintEvent rect =>
        by_cases he : w.m_pageSizes = []
        · exact ⟨_, SequentialPageWidget.paintEvent_empty w rect he⟩
        · obtain ⟨top, last, effs, _, _, hp, _⟩ :=
            SequentialPageWidget.paintEvent_nonempty w rect he
          exact ⟨_, hp⟩
    obtain ⟨⟨w1, effs⟩, hs⟩ := hstep
    obtain ⟨w2, h2⟩ := ih w1
    exact ⟨w2, by simp only [run, hs, h2]⟩

/-! ## Most recent completions -/

theorem lastCompletion_of_not_mem (l : List Int) (k : Int) (h : k ∉ l) :
    lastCompletion l k = none := by
  induction l with
  | nil => rfl
  | cons x l ih =>
    simp only [List.mem_cons, not_or] at h
    simp only [lastCompletion, ih h.2]
    rw [if_neg (fun hx => h.1 hx.symm)]

theorem lastCompletion_of_mem (l : List Int) (k : Int) (h : k ∈ l) :
    ∃ i, lastCompletion l k = some i := by
  induction l with
  | nil => simp at h
  | cons x l ih =>
    cases hl : lastCompletion l k with
    | some i => exact ⟨i + 1, by simp only [lastCompletion, hl]⟩
    | none =>
      have hx : x = k := by
        simp only [List.mem_cons] at h
        rcases h with h | h
        · exact h.symm
        · obtain ⟨i, hi⟩ := ih h
          rw [hl] at hi; exact absurd hi (by simp)
      exact ⟨0, by simp only [lastCompletion, hl, hx, if_true]⟩

theorem lastCompletion_append (a l : List Int) (k : Int) (i : Nat)
    (h : lastCompletion l k = some i) : lastCompletion (a ++ l) k = some (a.length + i) := by
  induction a with
  | nil => simpa using h
  | cons x a ih =>
    show lastCompletion (x :: (a ++ l)) k = _
    simp only [lastCompletion, ih, List.length_cons, Option.some.injEq]
    omega

/-- The head of the order sequence that does not occur again in it was completed before
every page that occurs later in the sequence. -/
theorem head_least_recent (pre rest : List Int) (k : Int) (hk : k ∉ rest) :
    lastCompletion (pre ++ k :: rest) k = some pre.length ∧
    ∀ k2 ∈ k :: rest, ∀ j, lastCompletion (pre ++ k :: rest) k2 = some j → pre.length ≤ j := by
  have h0 : lastCompletion (k :: rest) k = some 0 := by
    simp only [lastCompletion, lastCompletion_of_not_mem rest k hk, if_true]
  refine ⟨by simpa using lastCompletion_append pre _ k 0 h0, ?_⟩
  intro k2 hk2 j hj
  obtain ⟨i, hi⟩ := lastCompletion_of_mem (k :: rest) k2 hk2
  rw [lastCompletion_append pre _ k2 i hi] at hj
  simp only [Option.some.injEq] at hj
  omega

/-! ## Claims on the rendered-page cache -/

/-- C1 fails on the code: after render completions for the 21 distinct pages 0, ..., 20,
applied to a freshly constructed widget, the rendered-page cache holds 21 pages while the
configured limit is 20. -/
theorem cache_exceeds_limit_after_21_completions :
    (run fresh loads21).map (fun w => (w.m_pageCache.size, w.m_pageCacheLimit)) =
      some (21, 20) := by
  set_option maxRecDepth 100000 in decide

/-- C2 as stated fails: after completions for pages 0, ..., 19 and a second completion for
page 0, the handler run for page 20 removes page 0 from the cache, although page 0 is the
most recently requested page; the least-recently-requested cached page is page 1. -/
theorem evicted_page_not_least_recently_requested :
    run fresh loadsRepeat = some afterRepeat ∧
    (0 : Int) ∈ afterRepeat.m_pageCache.keys ∧
    (0 : Int) ∉ (afterRepeat.pageLoaded 20 1 ⟨10, 10, 20⟩).1.m_pageCache.keys ∧
    ¬ IsLeastRecentlyRequested (completions loadsRepeat) afterRepeat.m_pageCache.keys 0 := by
  refine ⟨?_, ?_, ?_, ?_⟩
  · decide!
  · set_option maxRecDepth 100000 in decide
  · set_option maxRecDepth 100000 in decide
  · rintro ⟨_, i, hi, h⟩
    have h0 : lastCompletion (completions loadsRepeat) 0 = some 20 := by decide
    have h1 : lastCompletion (completions loadsRepeat) 1 = some 1 := by decide
    have hm : (1 : Int) ∈ afterRepeat.m_pageCache.keys := by
      set_option maxRecDepth 100000 in decide
    rw [h0] at hi
    have := h 1 hm 1 h1
    simp only [Option.some.injEq] at hi
    omega

/-- C2, amended: in every reachable state the completion handler removes at most one page
from the rendered-page cache; a page it removes is the head of the request-order sequence,
which was longer than the limit; and when that page does not occur again later in the
order sequence, it is the least-recently-requested cached page. -/
theorem pageLoaded_evicts_head_of_order (dpi : Double) (icon : QPixmap) (width bottom : Int)
    (es : List Event) (w : SequentialPageWidget)
    (hrun : run (SequentialPageWidget.new dpi icon width bottom) es = some w)
    (page : Int) (zoom : Double) (image : QImage) (k : Int)
    (hk : k ∈ w.m_pageCache.keys)
    (hk2 : k ∉ (w.pageLoaded page zoom image).1.m_pageCache.keys) :
    w.m_cachedPagesLRU.head? = some k ∧
    (w.m_cachedPagesLRU.length : Int) > w.m_pageCacheLimit ∧
    (∀ k2 ∈ w.m_pageCache.keys, k2 ∉ (w.pageLoaded page zoom image).1.m_pageCache.keys →
      k2 = k) ∧
    (k ∉ w.m_cachedPagesLRU.tail →
      IsLeastRecentlyRequested (completions es) w.m_pageCache.keys k) := by
  obtain ⟨hhead, hlen⟩ := SequentialPageWidget.pageLoaded_lost_key w page zoom image k hk hk2
  refine ⟨hhead, hlen, ?_, ?_⟩
  · intro k2 h1 h2
    have := (SequentialPageWidget.pageLoaded_lost_key w page zoom image k2 h1 h2).1
    rw [hhead] at this
    simp only [Option.some.injEq] at this
    exact this.symm
  · intro htail
    obtain ⟨⟨pre, hpre⟩, hsub, _, _, _⟩ := reachable_inv dpi icon width bottom es w hrun
    cases hl : w.m_cachedPagesLRU with
    | nil => rw [hl] at hhead; simp at hhead
    | cons first rest =>
      rw [hl] at hhead htail hpre
      simp only [List.head?_cons, Option.some.injEq] at hhead
      simp only [List.tail_cons] at htail
      subst hhead
      obtain ⟨h1, h2⟩ := head_least_recent pre rest first htail
      rw [hpre]
      refine ⟨hk, pre.length, h1, ?_⟩
      intro k2 hk2m j hj
      exact h2 k2 (by rw [← hl]; exact hsub k2 hk2m) j hj

/-- Witness for `pageLoaded_evicts_head_of_order`: after completions for pages 0, ..., 20
the handler run for page 21 removes page 0, the head of the order sequence. -/
theorem pageLoaded_evicts_head_of_order_witness :
    (0 : Int) ∈ after21.m_pageCache.keys ∧
    (0 : Int) ∉ (after21.pageLoaded 21 1 ⟨10, 10, 21⟩).1.m_pageCache.keys ∧
    after21.m_cachedPagesLRU.head? = some 0 ∧
    IsLeastRecentlyRequested (completions loads21) after21.m_pageCache.keys 0 :=
  have h := pageLoaded_evicts_head_of_order 72 ⟨16, 16⟩ 200 0 loads21 after21
    (by decide!) 21 1 ⟨10, 10, 21⟩ 0
    (by set_option maxRecDepth 100000 in decide)
    (by set_option maxRecDepth 100000 in decide)
  ⟨by set_option maxRecDepth 100000 in decide, by set_option maxRecDepth 100000 in decide,
    h.1, h.2.2.2 (by set_option maxRecDepth 100000 in decide)⟩

/-- C3 as stated fails: after two completions for page 0, a reachable state, page 0 is a key
of the cache mapping and appears twice in the request-order sequence. -/
theorem cached_key_twice_in_order :
    Reachable afterTwice ∧ (0 : Int) ∈ afterTwice.m_pageCache.keys ∧
      afterTwice.m_cachedPagesLRU.count 0 = 2 :=
  ⟨⟨72, ⟨16, 16⟩, 200, 0, [loaded 0, loaded 0], by decide!⟩,
    by decide, by decide⟩

/-- C3, amended: in every state reachable through setZoom, document-status changes, render
completions and paints, every key of the cache mapping appears at least once in the
request-order sequence, and the mapping holds one entry per key. -/
theorem cached_keys_in_order (w : SequentialPageWidget) (h : Reachable w) :
    (∀ k ∈ w.m_pageCache.keys, 1 ≤ w.m_cachedPagesLRU.count k) ∧ w.m_pageCache.keys.Nodup := by
  obtain ⟨dpi, icon, width, bottom, es, hrun⟩ := h
  obtain ⟨_, hsub, hnd, _, _⟩ := reachable_inv dpi icon width bottom es w hrun
  refine ⟨?_, hnd⟩
  intro k hk
  exact List.count_pos_iff.2 (hsub k hk)

/-- Witness for `cached_keys_in_order`: the state after two completions for page 0. -/
theorem cached_keys_in_order_witness :
    Reachable afterTwice ∧
      ((∀ k ∈ afterTwice.m_pageCache.keys, 1 ≤ afterTwice.m_cachedPagesLRU.count k) ∧
        afterTwice.m_pageCache.keys.Nodup) :=
  have hr : Reachable afterTwice :=
    ⟨72, ⟨16, 16⟩, 200, 0, [loaded 0, loaded 0], by decide!⟩
  ⟨hr, cached_keys_in_order afterTwice hr⟩

/-! ## Claims on the layout -/

/-- C4 fails on the code: for the three pages of heights 100, 150, 120 with spacing 3, zoom 1
and screen scale 1, re-layout stores the total height 373 = 3 + 100 + 150 + 120, not 382:
the spacing is counted once, not once per page. -/
theorem total_height_omits_page_spacing :
    (fresh.documentStatusChanged scenarioDoc).map (fun r =>
      (r.1.m_pageSizes.map QSizeF.ht, r.1.m_pageSpacing, r.1.m_zoom, r.1.m_screenResolution,
        r.1.m_totalSize)) =
      some ([100, 150, 120], 3, 1, 1, ⟨90, 373⟩) := by
  decide!

namespace SequentialPageWidget

/-- Two wrapped additions in a row reduce the exact sum. -/
theorem wrap32_step (y t s : Int) :
    wrap32 (wrap32 (y + wrap32 t) + s) = wrap32 (y + (t + s)) := by
  unfold wrap32; omega

/-- The loop of `yForPage` adds, to the running offset, the (height + spacing) of the pages
from `i` up to the smaller of `endPage` and the page count, in `int` arithmetic. -/
theorem yForPageLoop_eq (w : SequentialPageWidget) (endPage : Int) :
    ∀ (fuel i : Nat) (y : Int), i ≤ w.m_pageSizes.length → w.m_pageSizes.length < i + fuel →
      IntRange y →
      yForPageLoop w endPage fuel (i : Int) y =
        some (wrap32 (y + (((w.m_pageSizes.take endPage.toNat).drop i).map (fun s =>
          ((s.mul w.m_screenResolution).mul w.m_zoom).toSize.ht + w.m_pageSpacing.val)).sum)) := by
  intro fuel
  induction fuel with
  | zero => intro i y h1 h2; omega
  | succ fuel ih =>
    intro i y h1 h2 hy
    by_cases hc : (i : Int) < w.pageCount ∧ (i : Int) < endPage
    · have hlt : i < w.m_pageSizes.length := by
        have := hc.1; simp only [pageCount] at this; exact_mod_cast this
      have hlt2 : i < endPage.toNat := by have := hc.2; omega
      have hcast : ((i : Int) + 1) = ((i + 1 : Nat) : Int) := by push_cast; rfl
      have hlen : i < (w.m_pageSizes.take endPage.toNat).length := by
        simp only [List.length_take]; omega
      simp only [yForPageLoop, hc, and_self, if_true, pageSize_of_lt w i hlt]
      rw [hcast, ih (i + 1) _ (by omega) (by omega) (wrap32_inRange _),
        List.drop_eq_getElem_cons hlen]
      simp only [List.map_cons, List.sum_cons, List.getElem_take, List.get_eq_getElem,
        Option.some.injEq]
      exact wrap32_step _ _ _
    · have hlen : (w.m_pageSizes.take endPage.toNat).length ≤ i := by
        simp only [List.length_take]
        by_cases h3 : (i : Int) < w.pageCount
        · have : ¬ (i : Int) < endPage := fun h4 => hc ⟨h3, h4⟩
          omega
        · simp only [pageCount] at h3; omega
      simp only [yForPageLoop, hc, if_false, List.drop_eq_nil_of_le hlen, List.map_nil,
        List.sum_nil, add_zero, wrap32_of_inRange y hy]

/-- The `int` that `yForPage` returns is the sum the specification describes, reduced to the
range of `int`. -/
theorem yForPageInt_eq_sum (w : SequentialPageWidget) (endPage : Int) :
    yForPageInt w endPage = some (wrap32 (yForPageSum w endPage)) := by
  have h := yForPageLoop_eq w endPage (w.m_pageSizes.length + 1) 0 w.m_pageSpacing.val
    (Nat.zero_le _) (by omega) w.m_pageSpacing.property
  simp only [Nat.cast_zero, List.drop_zero] at h
  simp only [yForPageInt, h, yForPageSum]

/-- `yForPage` always returns, with the value the specification describes, as an `int`
converted to `double`. -/
theorem yForPage_eq_sum (w : SequentialPageWidget) (endPage : Int) :
    yForPage w endPage = some (Double.ofInt (wrap32 (yForPageSum w endPage))) := by
  simp only [yForPage, yForPageInt_eq_sum, Option.map_some']

/-- One more page adds its height and the spacing to the sum. -/
theorem yForPageSum_succ (w : SequentialPageWidget) (i : Nat) (h : i < w.m_pageSizes.length) :
    yForPageSum w ((i : Int) + 1) =
      yForPageSum w (i : Int) +
        (((w.m_pageSizes.get ⟨i, h⟩).mul w.m_screenResolution).mul w.m_zoom).toSize.ht +
        w.m_pageSpacing.val := by
  have h1 : ((i : Int) + 1).toNat = i + 1 := by omega
  simp only [yForPageSum, h1, Int.toNat_ofNat, List.take_succ, List.getElem?_eq_getElem h,
    Option.toList_some, List.map_append, List.sum_append, List.map_cons, List.map_nil,
    List.sum_cons, List.sum_nil, List.get_eq_getElem]
  omega

/-- Beyond the last page the sum no longer grows. -/
theorem yForPageSum_of_ge (w : SequentialPageWidget) (n : Int) (h : w.pageCount ≤ n) :
    yForPageSum w n = yForPageSum w w.pageCount := by
  have h1 : w.m_pageSizes.length ≤ n.toNat := by simp only [pageCount] at h; omega
  simp only [yForPageSum, pageCount, Int.toNat_ofNat, List.take_of_length_le h1,
    List.take_of_length_le (le_refl _)]

end SequentialPageWidget

/-- C5 as stated fails. Beyond the last page: with three pages, `yForPage(4)` equals
`yForPage(3)` (both 382) and there is no page 3 whose height could be added, so the
recurrence does not hold at n = 4. And the sum is an `int`: with three pages of pixel height
1000000000 and spacing 3, `yForPage(3)` is -1294967284, not 3000000012. -/
theorem yForPage_recurrence_fails_past_last_page :
    scenario.pageCount = 3 ∧
    scenario.yForPage 3 = some 382 ∧ scenario.yForPage 4 = some 382 ∧
    scenario.pageHeight 3 = none ∧
    (¬ ∃ h y : Int, scenario.pageHeight (4 - 1) = some h ∧
        scenario.yForPage (4 - 1) = some (Double.ofInt y) ∧
        scenario.yForPage 4 = some (Double.ofInt (y + h + scenario.m_pageSpacing))) ∧
    tallPages.yForPageSum 3 = 3000000012 ∧ tallPages.yForPage 3 = some (-1294967284) := by
  refine ⟨by decide, by decide!, by decide!,
    by decide!, ?_,
    by decide!,
    by decide!⟩
  rintro ⟨h, y, h1, _⟩
  have h2 : scenario.pageHeight (4 - 1) = none := by decide!
  rw [h2] at h1
  exact absurd h1 (by simp)

/-- C5, amended: `yForPage(0)` is the spacing; `yForPage(n)` is the `int` `y` of the function
converted to `qreal`; for every n with 1 ≤ n ≤ pageCount(), that `int` is
`yForPage(n-1) + pageHeight(n-1) + spacing` in 32-bit `int` arithmetic, which is the plain
sum whenever the plain sum lies in the range of `int`, with pageHeight the integer pixel
height of the page at the current zoom; for every n, it is one spacing unit plus the sum of
(height + spacing) over all pages strictly before n, reduced to the range of `int`, which is
that sum whenever the sum lies in the range; and for n beyond the page count `yForPage(n)`
equals `yForPage(pageCount())`. -/
theorem yForPage_recurrence (w : SequentialPageWidget) :
    w.yForPage 0 = some (Double.ofInt w.m_pageSpacing) ∧
    (∀ n : Int, w.yForPage n = (w.yForPageInt n).map Double.ofInt) ∧
    (∀ n : Int, 1 ≤ n → n ≤ w.pageCount →
      ∃ h y : Int, w.pageHeight (n - 1) = some h ∧ w.yForPageInt (n - 1) = some y ∧
        w.yForPageInt n = some (wrap32 (y + h + w.m_pageSpacing)) ∧
        (IntRange (y + h + w.m_pageSpacing) →
          w.yForPageInt n = some (y + h + w.m_pageSpacing))) ∧
    (∀ n : Int, w.yForPageInt n = some (wrap32 (w.yForPageSum n)) ∧
      (IntRange (w.yForPageSum n) → w.yForPageInt n = some (w.yForPageSum n))) ∧
    (∀ n : Int, w.pageCount ≤ n → w.yForPage n = w.yForPage w.pageCount) := by
  refine ⟨?_, fun n => rfl, ?_, ?_, ?_⟩
  · rw [SequentialPageWidget.yForPage_eq_sum]
    have : w.yForPageSum 0 = w.m_pageSpacing.val := by
      simp [SequentialPageWidget.yForPageSum]
    rw [this, wrap32_of_inRange _ w.m_pageSpacing.property]
  · intro n h1 h2
    obtain ⟨i, hi⟩ : ∃ i : Nat, n = (i : Int) + 1 := ⟨(n - 1).toNat, by omega⟩
    subst hi
    have hlt : i < w.m_pageSizes.length := by
      simp only [SequentialPageWidget.pageCount] at h2; omega
    rw [add_sub_cancel_right]
    have hrec : w.yForPageInt ((i : Int) + 1) =
        some (wrap32 (wrap32 (w.yForPageSum (i : Int)) +
          (((w.m_pageSizes.get ⟨i, hlt⟩).mul w.m_screenResolution).mul w.m_zoom).toSize.ht +
          w.m_pageSpacing.val)) := by
      rw [SequentialPageWidget.yForPageInt_eq_sum, SequentialPageWidget.yForPageSum_succ w i hlt]
      congr 1
      unfold wrap32; omega
    refine ⟨(((w.m_pageSizes.get ⟨i, hlt⟩).mul w.m_screenResolution).mul w.m_zoom).toSize.ht,
      wrap32 (w.yForPageSum (i : Int)), ?_, SequentialPageWidget.yForPageInt_eq_sum w _, hrec, ?_⟩
    · simp only [SequentialPageWidget.pageHeight,
        SequentialPageWidget.pageSize_of_lt w i hlt, Option.map_some']
    · intro hr
      rw [hrec, wrap32_of_inRange _ hr]
  · intro n
    refine ⟨SequentialPageWidget.yForPageInt_eq_sum w n, fun hr => ?_⟩
    rw [SequentialPageWidget.yForPageInt_eq_sum, wrap32_of_inRange _ hr]
  · intro n h
    rw [SequentialPageWidget.yForPage_eq_sum, SequentialPageWidget.yForPage_eq_sum,
      SequentialPageWidget.yForPageSum_of_ge w n h]

/-- Witness for `yForPage_recurrence`: heights 100, 150, 120 with spacing 3, zoom 1 and
screen scale 1 give `yForPage(2) = 259 = yForPage(1) + 150 + 3`. -/
theorem yForPage_recurrence_witness :
    (1 : Int) ≤ 2 ∧ (2 : Int) ≤ scenario.pageCount ∧ scenario.yForPage 2 = some 259 ∧
    scenario.yForPageInt 2 = some 259 ∧ scenario.yForPageInt (2 - 1) = some 106 ∧
    scenario.pageHeight (2 - 1) = some 150 ∧
    ∃ h y : Int, scenario.pageHeight (2 - 1) = some h ∧ scenario.yForPageInt (2 - 1) = some y ∧
      scenario.yForPageInt 2 = some (wrap32 (y + h + scenario.m_pageSpacing)) ∧
      (IntRange (y + h + scenario.m_pageSpacing) →
        scenario.yForPageInt 2 = some (y + h + scenario.m_pageSpacing)) :=
  ⟨by decide, by decide, by decide!, by decide!,
    by decide!, by decide!,
    (yForPage_recurrence scenario).2.2.1 2 (by decide) (by decide)⟩

/-- C6: after `setZoom(f)` the rendered-page cache is empty, the page-size list is the same
as before the call, and `pageSize(i)` of every page index `i` is the stored base size of
page `i` multiplied by the screen scale and by `f`; when the state is the one reached by
reading a ready document, the stored base size of page `i` is the document's size of page
`i`. -/
theorem setZoom_pageSize (w : SequentialPageWidget) (f : Double) :
    ∃ w2 effs, w.setZoom f = some (w2, effs) ∧
      w2.m_pageCache = [] ∧ w2.m_pageCache.size = 0 ∧ w2.m_pageSizes = w.m_pageSizes ∧
      w2.pageCount = w.pageCount ∧
      (∀ (i : Nat) (h : i < w.m_pageSizes.length),
        w2.pageSize (i : Int) =
          some (((w.m_pageSizes.get ⟨i, h⟩).mul w.m_screenResolution).mul f)) ∧
      (∀ (w0 : SequentialPageWidget) (doc : QPdfDocument) (effs0 : List Effect),
        doc.status = Status.ready → w0.documentStatusChanged doc = some (w, effs0) →
        ∀ i : Nat, (i : Int) < doc.pageCount →
          w2.pageSize (i : Int) =
            some (((doc.pageSize (i : Int)).mul w.m_screenResolution).mul f)) := by
  obtain ⟨t, effs, h⟩ := SequentialPageWidget.setZoom_spec w f
  have hsize : ∀ (i : Nat) (hi : i < w.m_pageSizes.length),
      SequentialPageWidget.pageSize { w with m_zoom := f, m_totalSize := t, m_pageCache := [] }
        (i : Int) = some (((w.m_pageSizes.get ⟨i, hi⟩).mul w.m_screenResolution).mul f) :=
    fun i hi => SequentialPageWidget.pageSize_of_lt
      { w with m_zoom := f, m_totalSize := t, m_pageCache := [] } i hi
  refine ⟨_, effs, h, rfl, rfl, rfl, rfl, hsize, ?_⟩
  intro w0 doc effs0 hready hdoc i hi
  obtain ⟨t0, effs1, hd⟩ := SequentialPageWidget.documentStatusChanged_spec w0 doc
  rw [hd] at hdoc
  simp only [if_pos hready, Option.some.injEq, Prod.mk.injEq] at hdoc
  have hlist : w.m_pageSizes =
      (List.range doc.pageCount.toNat).map (fun (page : Nat) => doc.pageSize (page : Int)) := by
    rw [← hdoc.1]
  have hlt : i < w.m_pageSizes.length := by
    rw [hlist, List.length_map, List.length_range]; omega
  rw [hsize i hlt]
  congr 3
  simp only [List.get_eq_getElem, hlist, List.getElem_map, List.getElem_range]

/-- Witness for `setZoom_pageSize`: at zoom 2 the page of base size 90 x 150 has size
180 x 300. -/
theorem setZoom_pageSize_witness :
    (1 : Nat) < scenario.m_pageSizes.length ∧
    ∃ w2 effs, scenario.setZoom 2 = some (w2, effs) ∧ w2.m_pageCache = [] ∧
      w2.pageSize 1 = some ⟨180, 300⟩ := by
  obtain ⟨w2, effs, h, hc, _, _, _, hp, _⟩ := setZoom_pageSize scenario 2
  refine ⟨by decide, w2, effs, h, hc, ?_⟩
  have := hp 1 (by decide)
  rw [show ((1 : Nat) : Int) = 1 from rfl] at this
  rw [this]
  decide!

/-! ## The top-page search -/

namespace SequentialPageWidget

/-- The sum the specification describes for `yForPage` is one spacing unit more than the
accumulated offset. -/
theorem yForPageSum_eq (w : SequentialPageWidget) (page : Int) :
    w.yForPageSum page = w.m_pageSpacing.val + w.offsetBefore page := rfl

/-- One more page adds its height and the spacing to the accumulated offset. -/
theorem offsetBefore_succ (w : SequentialPageWidget) (i : Nat) (h : i < w.m_pageSizes.length) :
    w.offsetBefore ((i + 1 : Nat) : Int) =
      w.offsetBefore (i : Int) +
        ((((w.m_pageSizes.get ⟨i, h⟩).mul w.m_screenResolution).mul w.m_zoom).toSize.ht +
          w.m_pageSpacing.val) := by
  have h1 := yForPageSum_succ w i h
  rw [yForPageSum_eq, yForPageSum_eq] at h1
  have hcast : ((i + 1 : Nat) : Int) = (i : Int) + 1 := by push_cast; rfl
  rw [hcast]
  omega

/-- Inside the list the integer pixel height is the rounded scaled height. -/
theorem pageHeight_of_lt (w : SequentialPageWidget) (i : Nat) (h : i < w.m_pageSizes.length) :
    w.pageHeight (i : Int) =
      some (((w.m_pageSizes.get ⟨i, h⟩).mul w.m_screenResolution).mul w.m_zoom).toSize.ht := by
  simp only [pageHeight, pageSize_of_lt w i h, Option.map_some']

/-- Started at page `i` with the accumulated offset of the pages before `i` as an `int`, the
first loop of `paintEvent` ends at the first page from `i` on that reaches `top`, or at the
page count, with the accumulated offset of the pages before that page as an `int`. -/
theorem topLoop_spec (w : SequentialPageWidget) (top : Int) :
    ∀ (fuel i : Nat), i ≤ w.m_pageSizes.length → w.m_pageSizes.length < i + fuel →
      ∃ p : Nat, topLoop w top fuel (i : Int) (wrap32 (w.offsetBefore (i : Int))) =
          some ((p : Int), wrap32 (w.offsetBefore (p : Int))) ∧
        i ≤ p ∧ p ≤ w.m_pageSizes.length ∧
        (∀ q : Nat, i ≤ q → q < p → ¬ w.ReachesTop top (q : Int)) ∧
        (p < w.m_pageSizes.length → w.ReachesTop top (p : Int)) := by
  intro fuel
  induction fuel with
  | zero => intro i h1 h2; omega
  | succ fuel ih =>
    intro i h1 h2
    by_cases hlt : i < w.m_pageSizes.length
    · have hc : ((i : Int) < w.pageCount) := by simp only [pageCount]; exact_mod_cast hlt
      by_cases hge : wrap32 (w.offsetBefore (i : Int) +
          (((w.m_pageSizes.get ⟨i, hlt⟩).mul w.m_screenResolution).mul w.m_zoom).toSize.ht) ≥ top
      · refine ⟨i, ?_, le_refl _, h1, fun q hq1 hq2 => by omega,
          fun _ => ⟨_, pageHeight_of_lt w i hlt, hge⟩⟩
        simp only [topLoop, hc, if_true, pageSize_of_lt w i hlt, wrap32_wrap32_add, hge]
      · obtain ⟨p, hp, hp1, hp2, hp3, hp4⟩ := ih (i + 1) (by omega) (by omega)
        refine ⟨p, ?_, by omega, hp2, ?_, hp4⟩
        · have hcast : ((i : Int) + 1) = ((i + 1 : Nat) : Int) := by push_cast; rfl
          simp only [topLoop, hc, if_true, pageSize_of_lt w i hlt, wrap32_wrap32_add, hge,
            if_false]
          rw [hcast, wrap32_add_wrap32, ← offsetBefore_succ w i hlt]
          exact hp
        · intro q hq1 hq2
          by_cases hqi : q = i
          · subst hqi
            rintro ⟨h, hh, hr⟩
            rw [pageHeight_of_lt w q hlt] at hh
            simp only [Option.some.injEq] at hh
            rw [← hh] at hr
            exact hge hr
          · exact hp3 q (by omega) hq2
    · have hc : ¬ ((i : Int) < w.pageCount) := by
        simp only [pageCount]; intro hx; exact hlt (by exact_mod_cast hx)
      exact ⟨i, by simp only [topLoop, hc, if_false], le_refl _, h1, fun q hq1 hq2 => by omega,
        fun hx => absurd hx hlt⟩

/-- The render offsets depend on the state only through the page sizes, the scale, the zoom
and the spacing. -/
theorem renderOffset_congr (w w2 : SequentialPageWidget) (first y0 : Int)
    (h1 : w2.m_pageSizes = w.m_pageSizes) (h2 : w2.m_screenResolution = w.m_screenResolution)
    (h3 : w2.m_zoom = w.m_zoom) (h4 : w2.m_pageSpacing = w.m_pageSpacing) :
    ∀ k : Nat, renderOffset w2 first y0 k = renderOffset w first y0 k := by
  intro k
  induction k with
  | zero => rfl
  | succ k ih =>
    have hp : w2.pageSize (first + (k : Int)) = w.pageSize (first + (k : Int)) := by
      simp only [pageSize, h1, h2, h3]
    simp only [renderOffset, ih, hp, h4]

/-- The steps of a paint of a widget with page sizes. The top-page search ends at page `p`
with the accumulated offset of the pages before `p` as an `int`; no earlier page reaches the
top and `p` does unless it is the page count. The render loop starts at `p` with that offset
plus the spacing and ends at `last`: the pages `p, ..., last - 1` are placed at their render
offsets, all below the bottom of the rectangle, and if `last` is a page its render offset is
not below the bottom. The paint stores `p` and `last - 1`. -/
theorem paintEvent_steps (w : SequentialPageWidget) (rect : QRect) (h : w.m_pageSizes ≠ []) :
    ∃ (p last : Nat) (effs : List Effect),
      topLoop w rect.top (w.m_pageSizes.length + 1) 0 0 =
        some ((p : Int), wrap32 (w.offsetBefore (p : Int))) ∧
      p ≤ w.m_pageSizes.length ∧
      (∀ q : Nat, q < p → ¬ w.ReachesTop rect.top (q : Int)) ∧
      (p < w.m_pageSizes.length → w.ReachesTop rect.top (p : Int)) ∧
      renderLoop { w with m_topPageShowing := (p : Int) } rect.bottom
        (w.m_pageSizes.length + 1) (p : Int)
          (wrap32 (wrap32 (w.offsetBefore (p : Int)) + w.m_pageSpacing.val)) =
          some ((last : Int), effs) ∧
      p ≤ last ∧ last ≤ w.m_pageSizes.length ∧
      requestsOf effs =
        ((pagesFrom (p : Int) (last - p)).filter (fun q => !w.m_pageCache.contains q)).map
          (fun q => (q, Double.mul w.m_screenResolution w.m_zoom)) ∧
      (∀ k : Nat, k < last - p → ∃ yk size,
        renderOffset w (p : Int)
          (wrap32 (wrap32 (w.offsetBefore (p : Int)) + w.m_pageSpacing.val)) k = some yk ∧
        yk < rect.bottom ∧ w.pageSize ((p : Int) + (k : Int)) = some size ∧
        ∀ e ∈ paintPage w ((p : Int) + (k : Int)) yk size, e ∈ effs) ∧
      (last < w.m_pageSizes.length → ∃ yl,
        renderOffset w (p : Int)
          (wrap32 (wrap32 (w.offsetBefore (p : Int)) + w.m_pageSpacing.val)) (last - p) =
            some yl ∧ ¬ yl < rect.bottom) ∧
      paintEvent w rect =
        some ({ w with m_topPageShowing := (p : Int), m_bottomPageShowing := (last : Int) - 1 },
          Effect.fillBackground rect w.m_background :: effs ++
            [Effect.showingPageRange (p : Int) ((last : Int) - 1)]) := by
  obtain ⟨p, ht, _, hp2, hp3, hp4⟩ := topLoop_spec w rect.top (w.m_pageSizes.length + 1) 0
    (Nat.zero_le _) (by omega)
  have h0 : wrap32 (w.offsetBefore ((0 : Nat) : Int)) = 0 := by
    simp [offsetBefore, wrap32]
  rw [h0] at ht
  simp only [Nat.cast_zero] at ht
  obtain ⟨last, effs, hr, hl1, hl2, hreq, hoff, hstop, _⟩ :=
    renderLoop_spec { w with m_topPageShowing := (p : Int) } rect.bottom
      (w.m_pageSizes.length + 1) p
      (wrap32 (wrap32 (w.offsetBefore (p : Int)) + w.m_pageSpacing.val)) hp2
      (by show w.m_pageSizes.length < p + (w.m_pageSizes.length + 1); omega)
  have hcg := renderOffset_congr w { w with m_topPageShowing := (p : Int) } (p : Int)
    (wrap32 (wrap32 (w.offsetBefore (p : Int)) + w.m_pageSpacing.val)) rfl rfl rfl rfl
  refine ⟨p, last, effs, ht, hp2, fun q hq => hp3 q (Nat.zero_le _) hq, hp4, hr, hl1, hl2, hreq,
    ?_, ?_, ?_⟩
  · intro k hk
    obtain ⟨yk, size, ho, hb, hs, hd⟩ := hoff k hk
    rw [hcg k] at ho
    exact ⟨yk, size, ho, hb, hs, hd⟩
  · intro hl
    obtain ⟨yl, ho, hb⟩ := hstop hl
    rw [hcg] at ho
    exact ⟨yl, ho, hb⟩
  · have hne : w.m_pageSizes.isEmpty = false := by
      cases hp : w.m_pageSizes with
      | nil => exact absurd hp h
      | cons a l => rfl
    unfold paintEvent
    simp only [hne, Bool.false_eq_true, if_false, ht]
    rw [hr]

/-- Outside the list no page reaches the top: there is no page height. -/
theorem not_reachesTop_of_neg (w : SequentialPageWidget) (top q : Int) (h : q < 0) :
    ¬ w.ReachesTop top q := by
  rintro ⟨h0, hh, _⟩
  have hn : ¬ (0 ≤ q) := by omega
  simp only [pageHeight, pageSize, hn, if_false, Option.map_none'] at hh
  exact absurd hh (by simp)

end SequentialPageWidget

/-! ## Claims on painting -/

/-- The requests of a whole paint are those of its page loop. -/
theorem requestsOf_paint (bg last : Effect) (effs : List Effect)
    (h1 : requestsOf [bg] = []) (h2 : requestsOf [last] = []) :
    requestsOf (bg :: effs ++ [last]) = requestsOf effs := by
  have : bg :: effs ++ [last] = [bg] ++ effs ++ [last] := rfl
  rw [this, requestsOf_append, requestsOf_append, h1, h2]
  simp

/-- The pages shown after a paint that stored `top` and `last - 1`. -/
theorem pagesShown_stored (w : SequentialPageWidget) (top last : Nat) (h : top ≤ last) :
    pagesShown { w with m_topPageShowing := (top : Int), m_bottomPageShowing := (last : Int) - 1 } =
      pagesFrom (top : Int) (last - top) := by
  simp only [pagesShown]
  congr 1
  omega

/-- C7: for every state with a non-empty page list and every visible rectangle, the paint
returns. The range of pages it draws starts at the page the top-page search ends at, which
the paint stores as the top page, and a page belongs to the range exactly when it is a page
index from the top page on such that the y-offset of every page from the top page up to it,
accumulated by the render loop from the y-offset the top-page search ends with, is below the
bottom of the rectangle. The render requests of the paint are exactly, in order and once
each, those for the pages of the range that are not in the rendered-page cache, each at
resolution screen scale times zoom; no request is issued for a cached page; and every page
of the range is a valid index placed at its y-offset, with its painter calls among the
effects. -/
theorem paint_requests_uncached_pages (w : SequentialPageWidget) (rect : QRect)
    (h : w.m_pageSizes ≠ []) :
    ∃ w2 effs y0, w.paintEvent rect = some (w2, effs) ∧
      w.topSearch rect = some (w2.m_topPageShowing, y0) ∧
      (∀ p : Int, p ∈ pagesShown w2 ↔
        (w2.m_topPageShowing ≤ p ∧ p < w.pageCount ∧
          ∀ k : Nat, (k : Int) ≤ p - w2.m_topPageShowing →
            ∃ y, w.renderOffset w2.m_topPageShowing y0 k = some y ∧ y < rect.bottom)) ∧
      requestsOf effs =
        ((pagesShown w2).filter (fun p => !w.m_pageCache.contains p)).map
          (fun p => (p, Double.mul w.m_screenResolution w.m_zoom)) ∧
      (∀ p res, Effect.requestPage p res ∈ effs ↔
        (p ∈ pagesShown w2 ∧ w.m_pageCache.contains p = false ∧
          res = Double.mul w.m_screenResolution w.m_zoom)) ∧
      (∀ p ∈ pagesShown w2, 0 ≤ p ∧ p < w.pageCount ∧
        ∃ y size, w.renderOffset w2.m_topPageShowing y0 (p - w2.m_topPageShowing).toNat = some y ∧
          y < rect.bottom ∧ w.pageSize p = some size ∧
          ∀ e ∈ w.paintPage p y size, e ∈ effs) := by
  obtain ⟨top, last, effs, ht, _, _, _, _, h1, h2, hreq, hoff, hstop, hp⟩ :=
    SequentialPageWidget.paintEvent_steps w rect h
  have hshown := pagesShown_stored w top last h1
  have hreq2 : requestsOf (Effect.fillBackground rect w.m_background :: effs ++
      [Effect.showingPageRange (top : Int) ((last : Int) - 1)]) =
      ((pagesFrom (top : Int) (last - top)).filter (fun p => !w.m_pageCache.contains p)).map
        (fun p => (p, Double.mul w.m_screenResolution w.m_zoom)) := by
    rw [requestsOf_paint (Effect.fillBackground rect w.m_background)
      (Effect.showingPageRange (top : Int) ((last : Int) - 1)) effs rfl rfl, hreq]
  refine ⟨_, _, wrap32 (wrap32 (w.offsetBefore (top : Int)) + w.m_pageSpacing.val), hp, ?_, ?_,
    ?_, ?_, ?_⟩
  · simp only [SequentialPageWidget.topSearch, ht]
  · intro p
    rw [hshown, mem_pagesFrom]
    show _ ↔ ((top : Int) ≤ p ∧ p < w.pageCount ∧ ∀ k : Nat, (k : Int) ≤ p - (top : Int) →
      ∃ y, w.renderOffset (top : Int)
        (wrap32 (wrap32 (w.offsetBefore (top : Int)) + w.m_pageSpacing.val)) k = some y ∧
        y < rect.bottom)
    constructor
    · rintro ⟨hp1, hp2⟩
      refine ⟨hp1, by simp only [SequentialPageWidget.pageCount]; omega, ?_⟩
      intro k hk
      obtain ⟨yk, _, ho, hb, _, _⟩ := hoff k (by omega)
      exact ⟨yk, ho, hb⟩
    · rintro ⟨hp1, hp2, hall⟩
      refine ⟨hp1, ?_⟩
      by_contra hcon
      simp only [SequentialPageWidget.pageCount] at hp2
      obtain ⟨yl, ho, hb⟩ := hstop (by omega)
      obtain ⟨y, ho2, hb2⟩ := hall (last - top) (by omega)
      rw [ho] at ho2
      simp only [Option.some.injEq] at ho2
      rw [ho2] at hb
      exact hb hb2
  · rw [hshown]; exact hreq2
  · intro p res
    rw [← mem_requestsOf, hreq2, hshown]
    simp only [List.mem_map, List.mem_filter, Bool.not_eq_true', Prod.mk.injEq]
    constructor
    · rintro ⟨q, ⟨hq1, hq2⟩, rfl, rfl⟩
      exact ⟨hq1, hq2, rfl⟩
    · rintro ⟨hq1, hq2, rfl⟩
      exact ⟨p, ⟨hq1, hq2⟩, rfl, rfl⟩
  · intro p hpm
    rw [hshown] at hpm
    have hb := (mem_pagesFrom _ _ _).1 hpm
    obtain ⟨yk, size, ho, hlt, hs, hd⟩ := hoff (p - (top : Int)).toNat (by omega)
    have hidx : (top : Int) + (((p - (top : Int)).toNat : Nat) : Int) = p := by omega
    rw [hidx] at hs hd
    refine ⟨by omega, by simp only [SequentialPageWidget.pageCount]; omega, yk, size, ho, hlt,
      hs, ?_⟩
    intro e he
    exact List.mem_cons_of_mem _ (List.mem_append_left _ (hd e he))

/-- Witness for `paint_requests_uncached_pages`: heights 100, 150, 120, rectangle with top 0
and bottom 50, empty cache: exactly one request, for page 0 at screen scale times zoom; page
1 would be placed at y-offset 106, which is not below 50. And two pages of 595 by 842 points
at 96 dpi and zoom 1.5 with a rectangle of bottom 1690: page 1 is placed at y-offset 1689
and requested. -/
theorem paint_requests_uncached_pages_witness :
    scenario.m_pageSizes ≠ [] ∧
    (scenario.paintEvent ⟨0, 0, 199, 50⟩).map (fun r => requestsOf r.2) =
      some [(0, Double.mul scenario.m_screenResolution scenario.m_zoom)] ∧
    scenario.topSearch ⟨0, 0, 199, 50⟩ = some (0, 3) ∧
    scenario.renderOffset 0 3 1 = some 106 ∧
    a4Zoomed.renderOffset 0 3 1 = some 1689 ∧
    (a4Zoomed.paintEvent ⟨0, 0, 199, 1690⟩).map (fun r => requestsOf r.2) =
      some [(0, 2), (1, 2)] ∧
    ∃ w2 effs y0, scenario.paintEvent ⟨0, 0, 199, 50⟩ = some (w2, effs) ∧
      scenario.topSearch ⟨0, 0, 199, 50⟩ = some (w2.m_topPageShowing, y0) ∧
      requestsOf effs =
        ((pagesShown w2).filter (fun p => !scenario.m_pageCache.contains p)).map
          (fun p => (p, Double.mul scenario.m_screenResolution scenario.m_zoom)) :=
  have h := paint_requests_uncached_pages scenario ⟨0, 0, 199, 50⟩ (by decide)
  ⟨by decide, by decide!, by decide!, by decide!, by decide!, by decide!,
    h.elim fun w2 h2 => h2.elim fun effs h3 => h3.elim fun y0 h4 =>
      ⟨w2, effs, y0, h4.1, h4.2.1, h4.2.2.2.1⟩⟩

/-- C9 as stated fails: a paint of a widget with no page sizes, such as a freshly constructed
one, only fills the background and emits no `showingPageRange` notification. -/
theorem paint_without_pages_emits_nothing :
    fresh.paintEvent ⟨0, 0, 199, 50⟩ =
      some (fresh, [Effect.fillBackground ⟨0, 0, 199, 50⟩ QColor.darkGray]) ∧
    ∀ top bottom, Effect.showingPageRange top bottom ∉
      [Effect.fillBackground ⟨0, 0, 199, 50⟩ QColor.darkGray] := by
  refine ⟨SequentialPageWidget.paintEvent_empty fresh _ rfl, ?_⟩
  intro top bottom h
  simp at h

/-- C9, amended: for every state with a non-empty page list and every visible rectangle, the
paint returns and its last effect is the notification `showingPageRange` carrying the top and
bottom page indices the paint has just stored; with an empty page list the paint only fills
the background, leaves the state as it was and notifies nobody. -/
theorem paint_ends_with_notification (w : SequentialPageWidget) (rect : QRect) :
    (w.m_pageSizes ≠ [] →
      ∃ w2 effs, w.paintEvent rect = some (w2, effs) ∧
        effs.getLast? = some (Effect.showingPageRange w2.m_topPageShowing w2.m_bottomPageShowing)) ∧
    (w.m_pageSizes = [] →
      w.paintEvent rect = some (w, [Effect.fillBackground rect w.m_background])) := by
  refine ⟨?_, SequentialPageWidget.paintEvent_empty w rect⟩
  intro h
  obtain ⟨top, last, effs, _, _, hp, _⟩ := SequentialPageWidget.paintEvent_nonempty w rect h
  refine ⟨_, _, hp, ?_⟩
  show ((Effect.fillBackground rect w.m_background :: effs) ++
    [Effect.showingPageRange (top : Int) ((last : Int) - 1)]).getLast? = _
  rw [List.getLast?_append]
  rfl

/-- Witness for `paint_ends_with_notification`: on the three-page document a paint of the
rectangle with top 110 and bottom 300 ends with `showingPageRange(1, 2)`. -/
theorem paint_ends_with_notification_witness :
    scenario.m_pageSizes ≠ [] ∧
    ((scenario.paintEvent ⟨0, 110, 199, 300⟩).map (fun r => r.2.getLast?) =
      some (some (Effect.showingPageRange 1 2))) ∧
    ∃ w2 effs, scenario.paintEvent ⟨0, 110, 199, 300⟩ = some (w2, effs) ∧
      effs.getLast? = some (Effect.showingPageRange w2.m_topPageShowing w2.m_bottomPageShowing) :=
  ⟨by decide, by decide!,
    (paint_ends_with_notification scenario ⟨0, 110, 199, 300⟩).1 (by decide)⟩

/-- C10: a document-status change to a status other than ready returns with the page-size
cache empty, so `pageCount()` is 0, with the visible-top index 0, with the rendered-page cache
empty and with the total size of the empty layout (width 0, height one spacing unit); a paint
in that state only fills the background: it draws no page and requests no render. -/
theorem nonReady_status_empties_view (w : SequentialPageWidget) (doc : QPdfDocument)
    (rect : QRect) (h : doc.status ≠ Status.ready) :
    ∃ w2 effs, w.documentStatusChanged doc = some (w2, effs) ∧
      w2.m_pageSizes = [] ∧ w2.pageCount = 0 ∧ w2.m_topPageShowing = 0 ∧
      w2.m_pageCache = [] ∧ w2.m_totalSize = ⟨0, w.m_pageSpacing⟩ ∧
      w2.paintEvent rect = some (w2, [Effect.fillBackground rect w2.m_background]) ∧
      requestsOf [Effect.fillBackground rect w2.m_background] = [] := by
  have h0 : qRound (Double.ofInt 0) = 0 := qRound_ofInt 0 (by decide)
  have hs : qRound (Double.ofInt w.m_pageSpacing.val) = w.m_pageSpacing.val :=
    qRound_ofInt _ w.m_pageSpacing.property
  have hinv : SequentialPageWidget.invalidate
      { w with m_pageSizes := [], m_topPageShowing := 0 } =
      some ({ w with m_pageSizes := [], m_topPageShowing := 0,
                     m_totalSize := ⟨0, w.m_pageSpacing⟩, m_pageCache := [] },
        [Effect.setMinimumSize ⟨0, w.m_pageSpacing⟩, Effect.zoomChanged w.m_zoom,
          Effect.update]) := by
    simp only [SequentialPageWidget.invalidate, SequentialPageWidget.invalidateLoop,
      SequentialPageWidget.pageCount, List.length_nil, Nat.cast_zero, lt_self_iff_false,
      if_false, QSizeF.toSize, h0, hs]
  refine ⟨{ w with m_pageSizes := [], m_topPageShowing := 0,
                   m_totalSize := ⟨0, w.m_pageSpacing⟩, m_pageCache := [] },
    [Effect.setMinimumSize ⟨0, w.m_pageSpacing⟩, Effect.zoomChanged w.m_zoom, Effect.update],
    ?_, rfl, rfl, rfl, rfl, rfl, SequentialPageWidget.paintEvent_empty _ rect rfl, rfl⟩
  unfold SequentialPageWidget.documentStatusChanged
  simp only [if_neg h]
  exact hinv

/-- Witness for `nonReady_status_empties_view`: the three-page widget after its document
reports the status `loading`. -/
theorem nonReady_status_empties_view_witness :
    Status.loading ≠ Status.ready ∧
    ∃ w2 effs, scenario.documentStatusChanged ⟨Status.loading, 3, fun _ => ⟨80, 100⟩⟩ =
        some (w2, effs) ∧
      w2.m_pageSizes = [] ∧ w2.pageCount = 0 ∧ w2.m_topPageShowing = 0 ∧
      w2.m_pageCache = [] ∧ w2.m_totalSize = ⟨0, scenario.m_pageSpacing⟩ ∧
      w2.paintEvent ⟨0, 0, 199, 50⟩ =
        some (w2, [Effect.fillBackground ⟨0, 0, 199, 50⟩ w2.m_background]) ∧
      requestsOf [Effect.fillBackground ⟨0, 0, 199, 50⟩ w2.m_background] = [] :=
  ⟨by decide, nonReady_status_empties_view scenario ⟨Status.loading, 3, fun _ => ⟨80, 100⟩⟩
    ⟨0, 0, 199, 50⟩ (by decide)⟩

/-! ## Claims on re-layout -/

namespace SequentialPageWidget

/-- The loop of `invalidate` reads only the page sizes, the screen scale and the zoom. -/
theorem invalidateLoop_congr (w w2 : SequentialPageWidget)
    (h1 : w2.m_pageSizes = w.m_pageSizes) (h2 : w2.m_screenResolution = w.m_screenResolution)
    (h3 : w2.m_zoom = w.m_zoom) :
    ∀ (fuel : Nat) (page : Int) (total : QSizeF),
      invalidateLoop w2 fuel page total = invalidateLoop w fuel page total := by
  have hc : w2.pageCount = w.pageCount := by simp only [pageCount, h1]
  have hp : ∀ page, w2.pageSize page = w.pageSize page := by
    intro page; simp only [pageSize, h1, h2, h3]
  intro fuel
  induction fuel with
  | zero => intro page total; rfl
  | succ fuel ih =>
    intro page total
    simp only [invalidateLoop, hc, hp, ih]

/-- A key stays in the map after `pageLoaded`: the handler never leaves the map empty. -/
theorem pageLoaded_cache_ne_nil (w : SequentialPageWidget) (page : Int) (zoom : Double)
    (image : QImage) : (pageLoaded w page zoom image).1.m_pageCache ≠ [] := by
  intro h
  have hv := pageLoaded_value w page zoom image
  rw [h] at hv
  simp [PageCache.value] at hv

end SequentialPageWidget

/-- C11: re-layout is idempotent: `invalidate` always returns, and running it a second time
right after the first gives the same total size (indeed the same state and the same effects);
the rendered-page cache is empty after each of the two calls. -/
theorem invalidate_idempotent (w : SequentialPageWidget) :
    ∃ w1 effs1 w2 effs2, w.invalidate = some (w1, effs1) ∧ w1.invalidate = some (w2, effs2) ∧
      w2.m_totalSize = w1.m_totalSize ∧ w1.m_pageCache = [] ∧ w2.m_pageCache = [] ∧
      w2 = w1 ∧ effs2 = effs1 := by
  obtain ⟨t, ht, h⟩ := SequentialPageWidget.invalidate_spec w
  obtain ⟨t2, ht2, h2⟩ := SequentialPageWidget.invalidate_spec
    { w with m_totalSize := t.toSize, m_pageCache := [] }
  have heq : t2 = t := by
    have hc := SequentialPageWidget.invalidateLoop_congr w
      { w with m_totalSize := t.toSize, m_pageCache := [] } rfl rfl rfl
      (w.m_pageSizes.length + 1) 0
      ⟨Double.ofInt 0, Double.ofInt w.m_pageSpacing.val⟩
    have h3 : some t2 = some t := by rw [← ht2, ← ht]; exact hc
    exact Option.some.inj h3
  subst heq
  exact ⟨_, _, _, _, h, h2, rfl, rfl, rfl, rfl, rfl⟩

/-- C12 as stated fails: `setZoom` does not clear the page-size cache; after `setZoom(2)` the
three stored page sizes are still there. -/
theorem setZoom_keeps_page_sizes :
    (scenario.setZoom 2).map (fun r => (r.1.m_pageSizes, r.1.m_pageCache)) =
      some ([⟨80, 100⟩, ⟨90, 150⟩, ⟨70, 120⟩], []) := by
  decide!

/-- C12, amended: a document-status change clears the page-size cache (refilling it from the
document only when the status is ready) and clears the rendered-page cache; `setZoom` clears
the rendered-page cache and leaves the page-size cache as it was; and no other operation
clears the rendered-page cache: a render completion leaves it non-empty and a paint leaves it
unchanged. -/
theorem relayout_clears_caches (w : SequentialPageWidget) :
    (∀ doc : QPdfDocument, ∃ w2 effs, w.documentStatusChanged doc = some (w2, effs) ∧
      w2.m_pageCache = [] ∧
      w2.m_pageSizes =
        if doc.status = Status.ready then
          (List.range doc.pageCount.toNat).map (fun (page : Nat) => doc.pageSize (page : Int))
        else []) ∧
    (∀ f : Double, ∃ w2 effs, w.setZoom f = some (w2, effs) ∧
      w2.m_pageCache = [] ∧ w2.m_pageSizes = w.m_pageSizes) ∧
    (∀ (page : Int) (zoom : Double) (image : QImage),
      (w.pageLoaded page zoom image).1.m_pageCache ≠ [] ∧
      (w.pageLoaded page zoom image).1.m_pageSizes = w.m_pageSizes) ∧
    (∀ (rect : QRect) (w2 : SequentialPageWidget) (effs : List Effect),
      w.paintEvent rect = some (w2, effs) →
        w2.m_pageCache = w.m_pageCache ∧ w2.m_pageSizes = w.m_pageSizes) := by
  refine ⟨?_, ?_, ?_, ?_⟩
  · intro doc
    obtain ⟨t, effs, h⟩ := SequentialPageWidget.documentStatusChanged_spec w doc
    exact ⟨_, effs, h, rfl, rfl⟩
  · intro f
    obtain ⟨t, effs, h⟩ := SequentialPageWidget.setZoom_spec w f
    exact ⟨_, effs, h, rfl, rfl⟩
  · intro page zoom image
    refine ⟨SequentialPageWidget.pageLoaded_cache_ne_nil w page zoom image, ?_⟩
    obtain ⟨c, l, h⟩ := SequentialPageWidget.pageLoaded_frame w page zoom image
    rw [h]
  · intro rect w2 effs h
    obtain ⟨a, b, hw⟩ := SequentialPageWidget.paintEvent_frame w w2 rect effs h
    rw [hw]
    exact ⟨rfl, rfl⟩

/-- Witness for `relayout_clears_caches`: a paint of the three-page widget that holds the
bitmap of page 1 returns and leaves that bitmap in the cache. -/
theorem relayout_clears_caches_witness :
    ∃ w2 effs, (scenario.pageLoaded 1 1 ⟨90, 150, 7⟩).1.paintEvent ⟨0, 0, 199, 50⟩ =
        some (w2, effs) ∧
      w2.m_pageCache = [(1, ⟨90, 150, 7⟩)] ∧
      w2.m_pageSizes = (scenario.pageLoaded 1 1 ⟨90, 150, 7⟩).1.m_pageSizes := by
  obtain ⟨top, last, effs, _, _, hp, _⟩ := SequentialPageWidget.paintEvent_nonempty
    (scenario.pageLoaded 1 1 ⟨90, 150, 7⟩).1 ⟨0, 0, 199, 50⟩ (by decide)
  have h := (relayout_clears_caches (scenario.pageLoaded 1 1 ⟨90, 150, 7⟩).1).2.2.2
    ⟨0, 0, 199, 50⟩ _ _ hp
  refine ⟨_, _, hp, ?_, h.2⟩
  rw [h.1]
  decide

/-! ## Claims on the top-page search, the cache bound and index safety -/

/-- C13 as stated fails. After `setZoom(-1)` on the three-page document the pixel heights are
negative, and a paint of a rectangle with top 0 stores 3, the page count, as
`m_topPageShowing`, not 0. With one page of height 3000000000 at zoom 1 the pixel height,
an `int`, is -2147483648, and a paint of a rectangle with top 0 stores 1, the page count.
And with three pages of pixel height 1000000000 and a rectangle with top 2100000000, the
offset before page 2 plus its height is 3000000006, which exceeds the top, yet the paint
stores 3, the page count: as an `int` that sum is -1294967290. -/
theorem top_page_not_zero_at_negative_zoom :
    Reachable zoomedNegative ∧ zoomedNegative.m_pageSizes ≠ [] ∧
    (zoomedNegative.paintEvent ⟨0, 0, 199, 50⟩).map (fun r => r.1.m_topPageShowing) = some 3 ∧
    hugePage.m_pageSizes ≠ [] ∧ hugePage.m_zoom = 1 ∧ hugePage.m_screenResolution = 1 ∧
    hugePage.pageHeight 0 = some (-2147483648) ∧
    (hugePage.paintEvent ⟨0, 0, 199, 50⟩).map (fun r => r.1.m_topPageShowing) = some 1 ∧
    tallPages.pageHeight 2 = some 1000000000 ∧ tallPages.offsetBefore 2 = 2000000006 ∧
    (tallPages.paintEvent ⟨0, 2100000000, 199, 2100000050⟩).map
      (fun r => r.1.m_topPageShowing) = some 3 :=
  ⟨⟨72, ⟨16, 16⟩, 200, 0, [Event.documentStatusChanged scenarioDoc, Event.setZoom (-1)],
      by decide!⟩,
    by decide!, by decide!, by decide!, by decide!, by decide!, by decide!, by decide!,
    by decide!, by decide!, by decide!⟩

/-- C13, amended: for every non-empty page list and visible rectangle, the paint returns and
the `m_topPageShowing` it stores is the smallest page index whose accumulated offset (sum of
integer page height + spacing over the pages before it) plus its own height, computed in
32-bit `int` arithmetic, reaches or exceeds the rectangle's top, and is the page count when no
page does; whenever the accumulated offset plus the height lies in the range of `int`, the
`int` sum is the plain sum; and for a rectangle with top 0 the stored index is 0 whenever the
integer pixel height of page 0 is not negative. -/
theorem top_page_showing_is_first_reaching_top (w : SequentialPageWidget) (rect : QRect)
    (h : w.m_pageSizes ≠ []) :
    ∃ w2 effs, w.paintEvent rect = some (w2, effs) ∧
      0 ≤ w2.m_topPageShowing ∧ w2.m_topPageShowing ≤ w.pageCount ∧
      (∀ q : Int, q < w2.m_topPageShowing → ¬ w.ReachesTop rect.top q) ∧
      (w2.m_topPageShowing < w.pageCount → w.ReachesTop rect.top w2.m_topPageShowing) ∧
      ((∀ q : Int, ¬ w.ReachesTop rect.top q) → w2.m_topPageShowing = w.pageCount) ∧
      (∀ (q hq : Int), w.pageHeight q = some hq → IntRange (w.offsetBefore q + hq) →
        (w.ReachesTop rect.top q ↔ w.offsetBefore q + hq ≥ rect.top)) ∧
      (rect.top = 0 → (∃ h0, w.pageHeight 0 = some h0 ∧ 0 ≤ h0) → w2.m_topPageShowing = 0) := by
  obtain ⟨p, last, effs, _, hp2, hp3, hp4, _, _, _, _, _, _, hpaint⟩ :=
    SequentialPageWidget.paintEvent_steps w rect h
  have hsmall : ∀ q : Int, q < (p : Int) → ¬ w.ReachesTop rect.top q := by
    intro q hq
    by_cases hq0 : q < 0
    · exact SequentialPageWidget.not_reachesTop_of_neg w rect.top q hq0
    · have hqn : q = ((q.toNat : Nat) : Int) := by omega
      rw [hqn]
      exact hp3 q.toNat (by omega)
  have hzero : rect.top = 0 → (∃ h0, w.pageHeight 0 = some h0 ∧ 0 ≤ h0) → (p : Int) = 0 := by
    intro htop hh
    obtain ⟨h0, hh0, hnn⟩ := hh
    by_contra hne
    apply hsmall 0 (by omega)
    refine ⟨h0, hh0, ?_⟩
    have hoff : w.offsetBefore 0 = 0 := by simp [SequentialPageWidget.offsetBefore]
    have hr : IntRange h0 := by
      simp only [SequentialPageWidget.pageHeight, Option.map_eq_some'] at hh0
      obtain ⟨s, _, hs⟩ := hh0
      rw [← hs]
      exact qRound_inRange _
    rw [hoff, htop, zero_add, wrap32_of_inRange h0 hr]
    exact hnn
  refine ⟨_, _, hpaint, Int.ofNat_nonneg p, ?_, hsmall, ?_, ?_, ?_, hzero⟩
  · simp only [SequentialPageWidget.pageCount]; exact_mod_cast hp2
  · intro hlt
    exact hp4 (by simp only [SequentialPageWidget.pageCount] at hlt; exact_mod_cast hlt)
  · intro hnone
    by_contra hne
    have hlt : p < w.m_pageSizes.length := by
      simp only [SequentialPageWidget.pageCount] at hne
      have : (p : Int) ≠ (w.m_pageSizes.length : Int) := hne
      omega
    exact hnone _ (hp4 hlt)
  · intro q hq hh hr
    constructor
    · rintro ⟨h1, hh1, hge⟩
      rw [hh] at hh1
      simp only [Option.some.injEq] at hh1
      rw [← hh1, wrap32_of_inRange _ hr] at hge
      exact hge
    · intro hge
      refine ⟨hq, hh, ?_⟩
      rw [wrap32_of_inRange _ hr]
      exact hge

/-- Witness for `top_page_showing_is_first_reaching_top`: on the three-page document a paint
of a rectangle with top 0 stores `m_topPageShowing = 0`, and a paint of a rectangle with top
110 stores 1: page 0 ends at 100, page 1 at 103 + 150. -/
theorem top_page_showing_is_first_reaching_top_witness :
    scenario.m_pageSizes ≠ [] ∧
    (∃ h0, scenario.pageHeight 0 = some h0 ∧ 0 ≤ h0) ∧
    (scenario.paintEvent ⟨0, 110, 199, 300⟩).map (fun r => r.1.m_topPageShowing) = some 1 ∧
    ∃ w2 effs, scenario.paintEvent ⟨0, 0, 199, 50⟩ = some (w2, effs) ∧
      w2.m_topPageShowing = 0 := by
  have hh : ∃ h0, scenario.pageHeight 0 = some h0 ∧ 0 ≤ h0 :=
    ⟨100, by decide!, by decide⟩
  obtain ⟨w2, effs, hp, _, _, _, _, _, _, hz⟩ :=
    top_page_showing_is_first_reaching_top scenario ⟨0, 0, 199, 50⟩ (by decide)
  exact ⟨by decide, hh, by decide!, w2, effs, hp, hz rfl hh⟩

/-- A map with one entry per key, all of whose keys occur in a sequence, has at most as many
entries as the sequence is long. -/
theorem size_le_of_keys_subset (m : PageCache) (l : List Int) (hnd : m.keys.Nodup)
    (hsub : ∀ k ∈ m.keys, k ∈ l) : m.size ≤ l.length := by
  have h1 : m.keys.length ≤ l.length := (List.subperm_of_subset hnd hsub).length_le
  simpa [PageCache.keys, PageCache.size] using h1

/-- C14: in every state reachable through setZoom, document-status changes, render
completions and paints, the request-order sequence has length at most limit + 1 and every
key of the cache mapping occurs in it, hence the rendered-page cache holds at most limit + 1
pages; the bound is attained, by a reachable state whose cache holds limit + 1 pages. -/
theorem cache_holds_at_most_limit_plus_one (w : SequentialPageWidget) (h : Reachable w) :
    (w.m_cachedPagesLRU.length : Int) ≤ w.m_pageCacheLimit + 1 ∧
    (∀ k ∈ w.m_pageCache.keys, k ∈ w.m_cachedPagesLRU) ∧
    (w.m_pageCache.size : Int) ≤ w.m_pageCacheLimit + 1 ∧
    ∃ w2, Reachable w2 ∧ (w2.m_pageCache.size : Int) = w2.m_pageCacheLimit + 1 := by
  obtain ⟨dpi, icon, width, bottom, es, hrun⟩ := h
  obtain ⟨_, hsub, hnd, _, hlen⟩ := reachable_inv dpi icon width bottom es w hrun
  have hsize := size_le_of_keys_subset w.m_pageCache w.m_cachedPagesLRU hnd hsub
  refine ⟨hlen, hsub, by omega, after21, ?_, ?_⟩
  · exact ⟨72, ⟨16, 16⟩, 200, 0, loads21,
      by decide!⟩
  · set_option maxRecDepth 100000 in decide

/-- Witness for `cache_holds_at_most_limit_plus_one`: the state after completions for the
pages 0, ..., 20 is reachable; its order sequence and its cache both hold 21 = 20 + 1
entries. -/
theorem cache_holds_at_most_limit_plus_one_witness :
    Reachable after21 ∧ after21.m_cachedPagesLRU.length = 21 ∧
    (after21.m_pageCache.size : Int) ≤ after21.m_pageCacheLimit + 1 :=
  have hr : Reachable after21 :=
    ⟨72, ⟨16, 16⟩, 200, 0, loads21, by decide!⟩
  ⟨hr, by set_option maxRecDepth 100000 in decide,
    (cache_holds_at_most_limit_plus_one after21 hr).2.2.1⟩

/-- C15: for every non-empty page list and visible rectangle, the top-page search of the paint
ends at the page the paint stores as `m_topPageShowing`, with a y-offset, the one at which
the render loop starts and places that page, that equals `yForPage(m_topPageShowing)`: it is
the `int` that `yForPage` computes and returns as a `qreal`. -/
theorem paint_start_offset_eq_yForPage (w : SequentialPageWidget) (rect : QRect)
    (h : w.m_pageSizes ≠ []) :
    ∃ (p y last : Int) (effs : List Effect),
      w.topSearch rect = some (p, y) ∧
      SequentialPageWidget.renderLoop { w with m_topPageShowing := p } rect.bottom
        (w.m_pageSizes.length + 1) p y = some (last, effs) ∧
      w.paintEvent rect =
        some ({ w with m_topPageShowing := p, m_bottomPageShowing := last - 1 },
          Effect.fillBackground rect w.m_background :: effs ++
            [Effect.showingPageRange p (last - 1)]) ∧
      w.yForPage p = some (Double.ofInt y) ∧ w.yForPageInt p = some y := by
  obtain ⟨p, last, effs, ht, _, _, _, hr, _, _, _, _, _, hpaint⟩ :=
    SequentialPageWidget.paintEvent_steps w rect h
  have hy : wrap32 (w.yForPageSum (p : Int)) =
      wrap32 (wrap32 (w.offsetBefore (p : Int)) + w.m_pageSpacing.val) := by
    rw [SequentialPageWidget.yForPageSum_eq, wrap32_wrap32_add, add_comm]
  refine ⟨p, wrap32 (wrap32 (w.offsetBefore (p : Int)) + w.m_pageSpacing.val), last, effs, ?_,
    hr, hpaint, ?_, ?_⟩
  · simp only [SequentialPageWidget.topSearch, ht]
  · rw [SequentialPageWidget.yForPage_eq_sum, hy]
  · rw [SequentialPageWidget.yForPageInt_eq_sum, hy]

/-- Witness for `paint_start_offset_eq_yForPage`: on the three-page document a paint of the
rectangle with top 110 and bottom 300 starts drawing page 1 at offset 106, which is
`yForPage(1)`. -/
theorem paint_start_offset_eq_yForPage_witness :
    scenario.m_pageSizes ≠ [] ∧
    scenario.topSearch ⟨0, 110, 199, 300⟩ = some (1, 106) ∧ scenario.yForPage 1 = some 106 ∧
    ∃ (p y last : Int) (effs : List Effect),
      scenario.topSearch ⟨0, 110, 199, 300⟩ = some (p, y) ∧
      SequentialPageWidget.renderLoop { scenario with m_topPageShowing := p } 300
        (scenario.m_pageSizes.length + 1) p y = some (last, effs) ∧
      scenario.paintEvent ⟨0, 110, 199, 300⟩ =
        some ({ scenario with m_topPageShowing := p, m_bottomPageShowing := last - 1 },
          Effect.fillBackground ⟨0, 110, 199, 300⟩ scenario.m_background :: effs ++
            [Effect.showingPageRange p (last - 1)]) ∧
      scenario.yForPage p = some (Double.ofInt y) ∧ scenario.yForPageInt p = some y :=
  ⟨by decide, by decide!, by decide!,
    paint_start_offset_eq_yForPage scenario ⟨0, 110, 199, 300⟩ (by decide)⟩

/-- C16: `pageSize` has a value exactly for the indices from 0 up to, not including,
`pageCount()`, and a caller that reaches it with any other index has no result; for every
state, visible rectangle and integer `endPage`, also negative or beyond the page count,
`invalidate`, `paintEvent` and `yForPage` have a result, so every index they pass to
`pageSize` is in that range; and every page a paint requests from the renderer is in that
range. -/
theorem internal_page_indices_in_range (w : SequentialPageWidget) (rect : QRect)
    (endPage : Int) :
    (∀ page : Int, (∃ s, w.pageSize page = some s) ↔ (0 ≤ page ∧ page < w.pageCount)) ∧
    (∃ r, w.invalidate = some r) ∧
    (∃ r, w.paintEvent rect = some r) ∧
    (∃ y, w.yForPage endPage = some y) ∧
    (∀ (w2 : SequentialPageWidget) (effs : List Effect) (p : Int) (res : Double),
      w.paintEvent rect = some (w2, effs) → Effect.requestPage p res ∈ effs →
        0 ≤ p ∧ p < w.pageCount) := by
  refine ⟨?_, ?_, ?_, ⟨_, SequentialPageWidget.yForPage_eq_sum w endPage⟩, ?_⟩
  · intro page
    constructor
    · rintro ⟨s, hs⟩
      by_cases h0 : 0 ≤ page
      · refine ⟨h0, ?_⟩
        by_contra hge
        rw [SequentialPageWidget.pageSize_none_of_ge w page (by omega)] at hs
        exact absurd hs (by simp)
      · simp only [SequentialPageWidget.pageSize, h0, if_false] at hs
        exact absurd hs (by simp)
    · rintro ⟨h0, h1⟩
      have hlt : page.toNat < w.m_pageSizes.length := by
        simp only [SequentialPageWidget.pageCount] at h1; omega
      have hp : page = ((page.toNat : Nat) : Int) := by omega
      rw [hp]
      exact ⟨_, SequentialPageWidget.pageSize_of_lt w page.toNat hlt⟩
  · obtain ⟨t, _, h⟩ := SequentialPageWidget.invalidate_spec w
    exact ⟨_, h⟩
  · by_cases he : w.m_pageSizes = []
    · exact ⟨_, SequentialPageWidget.paintEvent_empty w rect he⟩
    · obtain ⟨top, last, effs, _, _, hp, _⟩ := SequentialPageWidget.paintEvent_nonempty w rect he
      exact ⟨_, hp⟩
  · intro w2 effs p res hpaint hmem
    by_cases he : w.m_pageSizes = []
    · rw [SequentialPageWidget.paintEvent_empty w rect he] at hpaint
      simp only [Option.some.injEq, Prod.mk.injEq] at hpaint
      rw [← hpaint.2] at hmem
      simp at hmem
    · obtain ⟨top, last, effs2, h1, h2, hp, hreq, _, _⟩ :=
        SequentialPageWidget.paintEvent_nonempty w rect he
      rw [hp] at hpaint
      simp only [Option.some.injEq, Prod.mk.injEq] at hpaint
      rw [← hpaint.2, ← mem_requestsOf, requestsOf_paint
        (Effect.fillBackground rect w.m_background)
        (Effect.showingPageRange (top : Int) ((last : Int) - 1)) effs2 rfl rfl, hreq] at hmem
      simp only [List.mem_map, List.mem_filter, Prod.mk.injEq] at hmem
      obtain ⟨q, ⟨hq, _⟩, rfl, _⟩ := hmem
      have hb := (mem_pagesFrom _ _ _).1 hq
      simp only [SequentialPageWidget.pageCount]
      omega

/-- Witness for `internal_page_indices_in_range`: on the three-page document `yForPage(-5)`
and `yForPage(7)` have results, and a paint of the rectangle from 110 to 300 requests the
pages 1 and 2, both below the page count 3. -/
theorem internal_page_indices_in_range_witness :
    scenario.yForPage (-5) = some 3 ∧ scenario.yForPage 7 = some 382 ∧
    (scenario.paintEvent ⟨0, 110, 199, 300⟩).map (fun r => requestsOf r.2) =
      some [(1, 1), (2, 1)] ∧
    ∃ w2 effs, scenario.paintEvent ⟨0, 110, 199, 300⟩ = some (w2, effs) ∧
      Effect.requestPage 2 1 ∈ effs ∧ (0 : Int) ≤ 2 ∧ (2 : Int) < scenario.pageCount := by
  refine ⟨by decide!, by decide!,
    by decide!, ?_⟩
  obtain ⟨top, last, effs, _, _, hp, _⟩ :=
    SequentialPageWidget.paintEvent_nonempty scenario ⟨0, 110, 199, 300⟩ (by decide)
  have hmem : Effect.requestPage 2 1 ∈
      Effect.fillBackground ⟨0, 110, 199, 300⟩ scenario.m_background :: effs ++
        [Effect.showingPageRange (top : Int) ((last : Int) - 1)] := by
    have hv : (scenario.paintEvent ⟨0, 110, 199, 300⟩).map
        (fun r => decide (Effect.requestPage 2 1 ∈ r.2)) = some true := by
      decide!
    rw [hp] at hv
    simpa using hv
  exact ⟨_, _, hp, hmem,
    (internal_page_indices_in_range scenario ⟨0, 110, 199, 300⟩ 7).2.2.2.2 _ _ 2 1 hp hmem⟩

end QtPdf
